import Mathlib

/-!
A shallow embedding of `main.go` of pwned-passwords-check.

The program answers whether a 32-character NTLM hash occurs in the Have-I-Been-Pwned
range corpus.  It sends the first five characters of the hash, rewrites the answer into a
file of 28-byte records and searches that file by bisection.  This development embeds

* `searchFile`, the bisection over 28-byte records,
* `Stripper.Read`, the transcoder from `suffix:count` lines to records,
* `check`, with the registry of per-prefix locks, the conditional request and the cache
  files,
* the batch loop of `main`, with the admission tokens and the result channel,

and proves properties of these definitions.  Go strings and byte slices are lists of
bytes; a byte is a natural number.  Line numbers refer to `main.go`.
-/

namespace PwnedCheck

/-! ## Bytes and strings -/

/-- A Go `string` or `[]byte`: the sequence of its bytes. -/
abbrev Bytes := List Nat

/-- The bytes of an ASCII literal. -/
def bytes (s : String) : Bytes := s.toList.map Char.toNat

/-- Go's `<` on strings: bytewise lexicographic comparison. -/
def strLt : Bytes → Bytes → Bool
  | [], [] => false
  | [], _ :: _ => true
  | _ :: _, [] => false
  | a :: as, b :: bs => if a < b then true else if b < a then false else strLt as bs

/-! ## `searchFile` -/

/-- The ways `searchFile` can stop without returning. -/
inductive SearchStop where
  /-- Line 140: `log.Fatal(err)`, the read at the probed offset failed. -/
  | readError
  /-- Line 144: `log.Fatal("short line")`, fewer than 27 bytes were read. -/
  | shortLine
  /-- The iteration budget of the embedding ran out with the range non-empty. -/
  | budget
  deriving DecidableEq, Repr

/-- What a run of `searchFile` ends in. -/
inductive SearchResult where
  /-- Line 157: `return hashSuffix == line, nil`. -/
  | returned (found : Bool)
  /-- The process was stopped inside the loop. -/
  | stopped (why : SearchStop)
  deriving DecidableEq, Repr

/-- One iteration of the loop: the range on entry and the probed index. -/
structure Probe where
  lower : Nat
  middle : Nat
  upper : Nat
  deriving DecidableEq, Repr

/-- `f.Seek(off, 0)` followed by `f.Read(buf)` with `len(buf) = len` on a regular file
that nobody modifies: the bytes from `off` on, at most `len` of them, and
`io.EOF` (the flag) when there is none. -/
def readAt (file : Bytes) (off len : Nat) : Bytes × Bool :=
  let got := (file.drop off).take len
  (got, got.isEmpty)

/-- The loop of lines 134 to 155.  The first argument bounds the number of
iterations; the probes made are recorded next to the outcome, which is the
final value of `line` or the reason the process was stopped. -/
def searchLoop (file hashSuffix : Bytes) :
    Nat → Nat → Nat → Bytes → List Probe × Except SearchStop Bytes
  | 0, lower, upper, line =>
    if upper - lower ≥ 1 then ([], .error .budget) else ([], .ok line)
  | fuel + 1, lower, upper, line =>
    if upper - lower ≥ 1 then
      let middle := (upper + lower) / 2
      let rd := readAt file (middle * 28) 27
      let here : Probe := { lower := lower, middle := middle, upper := upper }
      if rd.2 then ([here], .error .readError)
      else if rd.1.length ≠ 27 then ([here], .error .shortLine)
      else
        let line := rd.1
        if strLt hashSuffix line then
          let rest := searchLoop file hashSuffix fuel lower middle line
          (here :: rest.1, rest.2)
        else if strLt line hashSuffix then
          let rest := searchLoop file hashSuffix fuel (middle + 1) upper line
          (here :: rest.1, rest.2)
        else ([here], .ok line)
    else ([], .ok line)

/-- A run of `searchFile`: the probes and the result. -/
structure SearchRun where
  probes : List Probe
  result : SearchResult
  deriving DecidableEq, Repr

/-- `searchFile(hash, f)` on a file with contents `file` (lines 121 to 159).
`upper` starts at `size / 28`, which also bounds the number of iterations. -/
def searchFile (hash file : Bytes) : SearchRun :=
  let upper := file.length / 28
  let hashSuffix := hash.drop 5
  let run := searchLoop file hashSuffix upper 0 upper []
  { probes := run.1
    result :=
      match run.2 with
      | .ok line => .returned (decide (hashSuffix = line))
      | .error why => .stopped why }

/-- A partition file: every suffix followed by one newline byte. -/
def partitionFile : List Bytes → Bytes
  | [] => []
  | r :: rs => r ++ 10 :: partitionFile rs

/-! ## The wrapped reader -/

/-- The errors an `io.Reader` reports. -/
inductive ReadErr where
  /-- The error `io.EOF`. -/
  | eof
  /-- Any other error, such as a connection that broke. -/
  | failed
  deriving DecidableEq, Repr

/-- The `io.Reader` wrapped by a `Stripper` (field `r`; in `check` it is `res.Body`).
It holds the bytes it has not delivered yet.  A call delivers at most `chunk + 1` of
them.  When the bytes run out it reports `ending`; as the contract of `io.Reader`
allows, it does so either in the call that delivers the last bytes (`eager`) or in the
next call, which delivers nothing. -/
structure Source where
  data : Bytes
  chunk : Nat
  eager : Bool
  ending : ReadErr
  deriving DecidableEq, Repr

/-- The call `r.Read(p)` with `len(p) = len`, for `len ≥ 1`: the bytes stored at the
front of `p`, the error, and the reader afterwards. -/
def Source.Read (r : Source) (len : Nat) : Bytes × Option ReadErr × Source :=
  match r.data with
  | [] => ([], some r.ending, r)
  | _ :: _ =>
    let n := min len (r.chunk + 1)
    let rest := r.data.drop n
    (r.data.take n, if r.eager && rest.isEmpty then some r.ending else none,
      { r with data := rest })

/-! ## `Stripper.Read` -/

/-- The type `Stripper` of lines 225 to 228. -/
structure Stripper where
  r : Source
  leftOver : Bytes
  deriving DecidableEq, Repr

/-- Go's builtin `copy(dst, src)`: the destination afterwards and the number of bytes
copied. -/
def copyInto (dst src : Bytes) : Bytes × Nat :=
  let n := min dst.length src.length
  (src.take n ++ dst.drop n, n)

/-- How the loop of lines 242 to 250 ends. -/
inductive SuffixRead where
  /-- Line 248: `return n, err` with the count of the last call of the reader. -/
  | failed (n : Nat) (err : ReadErr) (r : Source) (leftOver : Bytes)
  /-- The loop was left with `read = 27`. -/
  | filled (r : Source) (leftOver : Bytes)
  deriving DecidableEq, Repr

/-- The loop `for read < 27` of lines 242 to 250, which fills `s.leftOver[read:27]`.  The
first argument bounds the number of iterations; `none` means the bound was reached. -/
def readSuffix : Nat → Source → Bytes → Nat → Option SuffixRead
  | 0, r, leftOver, read => if read < 27 then none else some (.filled r leftOver)
  | fuel + 1, r, leftOver, read =>
    if read < 27 then
      let rd := r.Read (27 - read)
      let leftOver := leftOver.take read ++ rd.1 ++ leftOver.drop (read + rd.1.length)
      let read := read + rd.1.length
      match rd.2.1 with
      | some err => some (.failed rd.1.length err rd.2.2 leftOver)
      | none => readSuffix fuel rd.2.2 leftOver read
    else some (.filled r leftOver)

/-- The loop of lines 256 to 265, which reads single bytes up to and including the next
newline.  It yields the error, if the reader reported one, and the reader afterwards.
The first argument bounds the number of iterations; `none` means the bound was
reached. -/
def discardLine : Nat → Source → Bytes → Option (Option ReadErr × Source)
  | 0, _, _ => none
  | fuel + 1, r, single =>
    let rd := r.Read 1
    let single := (copyInto single rd.1).1
    match rd.2.1 with
    | some err => some (some err, rd.2.2)
    | none => if single.head? = some 10 then some (none, rd.2.2) else discardLine fuel rd.2.2 single

/-- What a call of `Stripper.Read` returns, with the caller's buffer and the receiver
afterwards. -/
structure ReadReturn where
  b : Bytes
  n : Nat
  err : Option ReadErr
  s : Stripper
  deriving DecidableEq, Repr

/-- `Stripper.Read` (lines 230 to 268) called with the buffer `b`.  `none` means that one
of the two inner loops reached its iteration bound. -/
def Stripper.Read (s : Stripper) (b : Bytes) : Option ReadReturn :=
  if s.leftOver.length > 0 then
    let c := copyInto b s.leftOver
    some { b := c.1, n := c.2, err := none, s := { s with leftOver := s.leftOver.drop c.2 } }
  else
    match readSuffix 27 s.r (List.replicate 27 0 ++ [10]) 0 with
    | none => none
    | some (.failed n err r leftOver) =>
      some { b := b, n := n, err := some err, s := { r := r, leftOver := leftOver } }
    | some (.filled r leftOver) =>
      let c := copyInto b leftOver
      match discardLine (r.data.length + 1) r [0] with
      | none => none
      | some (err, r) =>
        some { b := c.1, n := c.2, err := err, s := { r := r, leftOver := leftOver.drop c.2 } }

/-- Successive calls of `Read` on one buffer until a call reports an error, as the loop
of `io.Copy` makes them: the bytes `b[:n]` of every call are appended to what was
received, and the error of the last call ends the loop.  (A count `n` above the size of
the buffer is cut to the buffer.)  The first argument bounds the number of calls; `none`
means the bound was reached. -/
def readAll : Nat → Stripper → Bytes → Bytes → Option (Bytes × ReadErr)
  | 0, _, _, _ => none
  | fuel + 1, s, b, received =>
    match s.Read b with
    | none => none
    | some ret =>
      let received := received ++ ret.b.take ret.n
      match ret.err with
      | some err => some (received, err)
      | none => readAll fuel ret.s ret.b received

/-- The wire format: every suffix followed by a colon, its count and a newline. -/
def wireLines : List (Bytes × Bytes) → Bytes
  | [] => []
  | l :: ls => l.1 ++ 58 :: l.2 ++ 10 :: wireLines ls

/-- A `Stripper` that has not been read from, and a buffer of `size` bytes. -/
def readStream (fuel : Nat) (r : Source) (size : Nat) : Option (Bytes × ReadErr) :=
  readAll fuel { r := r, leftOver := [] } (List.replicate size 0) []

/-! ## `check` -/

/-- `strings.ToUpper` on ASCII text: the letters `a` to `z` become `A` to `Z`, every other
byte is kept.  (Text that is not ASCII is outside this embedding; the theorems about
`check` are stated for hashes of hexadecimal digits.) -/
def toUpper (s : Bytes) : Bytes :=
  s.map (fun c => if 97 ≤ c ∧ c ≤ 122 then c - 32 else c)

/-- A hexadecimal digit, in either case. -/
def isHexDigit (c : Nat) : Bool :=
  (48 ≤ c && c ≤ 57) || (65 ≤ c && c ≤ 70) || (97 ≤ c && c ≤ 102)

/-- The `HashQuery` of the data model: 32 hexadecimal digits. -/
def isHash (h : Bytes) : Bool := h.length == 32 && h.all isHexDigit

/-- The functions of the Go library that the program calls and whose code is not part of
the repository.  The definitions below take them as they are; the theorems hold for
every value of them. -/
structure Lib where
  /-- The function `strings.TrimSpace`. -/
  trimSpace : Bytes → Bytes
  /-- Whether `http.NewRequest(http.MethodGet, url, nil)` returns a request (`true`) or an
  error (`false`). -/
  newRequestOK : Bytes → Bool
  /-- The size of the buffer that `io.Copy` reads into. -/
  copyBuf : Nat

/-- The six white-space characters of ASCII. -/
def isSpaceASCII (c : Nat) : Bool :=
  c == 9 || c == 10 || c == 11 || c == 12 || c == 13 || c == 32

/-- The value of `strings.TrimSpace` on ASCII text: the white space at both ends is
removed.  It serves to run the definitions on ASCII examples. -/
def trimSpaceASCII (s : Bytes) : Bytes :=
  ((s.dropWhile isSpaceASCII).reverse.dropWhile isSpaceASCII).reverse

/-- The library on the examples of this development, which are ASCII text with
hexadecimal prefixes: `strings.TrimSpace` on ASCII text, `http.NewRequest` accepting the
range URL of a hexadecimal prefix, and `io.Copy` reading into `copyBuf` bytes. -/
def Lib.onASCII (copyBuf : Nat) : Lib :=
  { trimSpace := trimSpaceASCII, newRequestOK := fun _ => true, copyBuf := copyBuf }

/-- `filepath.Join(CacheDir, prefix, "etag")`, for a prefix of hexadecimal digits, which
path cleaning leaves as it is. -/
def etagPath (pfx : Bytes) : Bytes := bytes "cache" ++ 47 :: pfx ++ 47 :: bytes "etag"

/-- `filepath.Join(CacheDir, prefix, "data")`, for a prefix of hexadecimal digits, which
path cleaning leaves as it is. -/
def dataPath (pfx : Bytes) : Bytes := bytes "cache" ++ 47 :: pfx ++ 47 :: bytes "data"

/-- The files of the cache: the contents of every path that exists. -/
abbrev Files := Bytes → Option Bytes

/-- `os.WriteFile`, or creating, truncating and filling a file. -/
def Files.write (fs : Files) (path content : Bytes) : Files :=
  fun p => if p = path then some content else fs p

/-- `attemptLoadEtag` (lines 111 to 119). -/
def attemptLoadEtag (lib : Lib) (fs : Files) (pfx : Bytes) : Bytes :=
  match fs (etagPath pfx) with
  | none => []
  | some etag => lib.trimSpace etag

/-- The hold a caller takes on the lock of its prefix. -/
inductive Hold where
  /-- Line 36: `prefixLock.Lock()`, taken by the caller that inserted the lock. -/
  | write
  /-- Line 44: `prefixLock.RLock()`, taken by a caller that found the lock. -/
  | read
  deriving DecidableEq, Repr

/-- The map `searchedPrefixes`: prefixes and their locks.  A lock is identified by a
number, which stands for the address of the `sync.RWMutex`. -/
abbrev Registry := List (Bytes × Nat)

/-- What the critical section of lines 31 to 46 yields. -/
structure Acquired where
  registry : Registry
  lock : Nat
  hold : Hold
  deriving DecidableEq, Repr

/-- The critical section of lines 31 to 46, run under the mutex `lock`: look the prefix up,
and insert a new lock for it when it is absent. -/
def acquire (reg : Registry) (pfx : Bytes) : Acquired :=
  match reg.lookup pfx with
  | none => { registry := (pfx, reg.length) :: reg, lock := reg.length, hold := .write }
  | some l => { registry := reg, lock := l, hold := .read }

/-- The request of lines 58 to 65. -/
structure Request where
  url : Bytes
  ifNoneMatch : Option Bytes
  deriving DecidableEq, Repr

/-- Lines 58 to 65: the `GET` request for the range of a prefix, with the header
`If-None-Match` when a validator is stored. -/
def rangeRequest (pfx oldEtag : Bytes) : Request :=
  { url := bytes "https://api.pwnedpasswords.com/range/" ++ pfx ++ bytes "?mode=ntlm"
    ifNoneMatch := if oldEtag ≠ [] then some oldEtag else none }

/-- What `http.DefaultClient.Do(req)` yields. -/
inductive NetResponse where
  /-- An error: no response. -/
  | failure
  /-- A response with its status, its `etag` header and its body. -/
  | response (status : Nat) (etag : Bytes) (body : Source)
  deriving DecidableEq, Repr

/-- The errors `check` returns. -/
inductive CheckError where
  /-- Lines 51 and 78: "failed to open data file". -/
  | openData
  /-- Line 60: "Failed to construct query to pwndpasswords". -/
  | construct
  /-- Line 69: "Failed to query pwndpasswords". -/
  | query
  /-- Line 104: "failed to write to hashes store". -/
  | writeStore
  deriving DecidableEq, Repr

/-- How a call of `check` ends. -/
inductive CheckResult where
  /-- It returns `found, nil`. -/
  | ok (found : Bool)
  /-- It returns `false, err`. -/
  | error (err : CheckError)
  /-- The process was stopped inside `searchFile`. -/
  | stopped (why : SearchStop)
  /-- The copy of the body reached the iteration bound of the embedding. -/
  | unfinished
  deriving DecidableEq, Repr

/-- The process state `check` works on: the registry of locks and the cache files. -/
structure World where
  searchedPrefixes : Registry
  files : Files

/-- A call of `check`: the state afterwards, the requests sent and the result. -/
structure CheckRun where
  world : World
  requests : List Request
  result : CheckResult

/-- The result of `searchFile` as a result of `check`. -/
def CheckResult.ofSearch : SearchResult → CheckResult
  | .returned found => .ok found
  | .stopped why => .stopped why

/-- Lines 49 to 55 and 76 to 82: open the data file of the prefix and search it. -/
def searchData (fs : Files) (pfx hash : Bytes) : CheckResult :=
  match fs (dataPath pfx) with
  | none => .error .openData
  | some f => .ofSearch (searchFile hash f).result

/-- `check(hash)` (lines 25 to 109), run from start to end without another caller in
between.  `lib` holds the library functions, `net` is what the network answers to a
request.  When `http.NewRequest` returns an error, `check` returns it (line 60) and
nothing is sent.  The file system only refuses to open a file that does not exist. -/
def check (lib : Lib) (net : Request → NetResponse) (w : World) (hash : Bytes) : CheckRun :=
  let hash := toUpper hash
  let pfx := hash.take 5
  let oldEtag := attemptLoadEtag lib w.files pfx
  let acq := acquire w.searchedPrefixes pfx
  let w : World := { w with searchedPrefixes := acq.registry }
  match acq.hold with
  | .read => { world := w, requests := [], result := searchData w.files pfx hash }
  | .write =>
    let req := rangeRequest pfx oldEtag
    if lib.newRequestOK req.url = false then
      { world := w, requests := [], result := .error .construct }
    else
      match net req with
      | .failure => { world := w, requests := [req], result := .error .query }
      | .response status etag body =>
        if status = 304 then
          { world := w, requests := [req], result := searchData w.files pfx hash }
        else
          let fs := (w.files.write (etagPath pfx) etag).write (dataPath pfx) []
          match readStream (body.data.length + 2) body lib.copyBuf with
          | none => { world := { w with files := fs }, requests := [req], result := .unfinished }
          | some (written, err) =>
            let fs := fs.write (dataPath pfx) written
            if err ≠ .eof then
              { world := { w with files := fs }, requests := [req], result := .error .writeStore }
            else
              { world := { w with files := fs }, requests := [req]
                result := .ofSearch (searchFile hash written).result }

/-- A process that has queried nothing, on a machine with no cache. -/
def World.fresh : World := { searchedPrefixes := [], files := fun _ => none }

/-- Calls of `check` one after the other, each with the hash it checks and what the
network answers to it: the state of the process after the last of them. -/
def checks (lib : Lib) : World → List ((Request → NetResponse) × Bytes) → World
  | w, [] => w
  | w, call :: calls => checks lib (check lib call.1 w call.2).world calls

/-- The critical sections of the callers in `order`, one after the other as the mutex
`lock` serialises them: the registry afterwards and, for every caller, its prefix with
the lock and the hold it got. -/
def acquireAll : Registry → List Bytes → Registry × List (Bytes × Nat × Hold)
  | reg, [] => (reg, [])
  | reg, pfx :: order =>
    let acq := acquire reg pfx
    let rest := acquireAll acq.registry order
    (rest.1, (pfx, acq.lock, acq.hold) :: rest.2)

/-! ## The batch loop of `main` -/

/-- The type `Result` of lines 176 to 179. -/
structure Result where
  hash : Bytes
  found : Bool
  deriving DecidableEq, Repr

/-- Where the main goroutine is. -/
inductive MainStatus where
  /-- Inside the loop `for scanner.Scan()` of lines 184 to 208. -/
  | scanning
  /-- Line 187: `log.Fatal`, the process has exited. -/
  | fatal
  /-- Line 213: `return`, the process has exited. -/
  | returned
  deriving DecidableEq, Repr

/-- The state of a batch run.  `started` and `evaluated` record history: the hashes
handed to a goroutine, and the hashes whose call of `check` has returned. -/
structure Batch where
  status : MainStatus
  /-- The lines the scanner has not delivered yet. -/
  pending : List Bytes
  /-- The number of tokens in the channel `limit`, whose capacity is 10. -/
  limit : Nat
  /-- The goroutines that are inside `check(hash)`. -/
  checking : List Bytes
  /-- The goroutines that are inside `output <- Result{...}`. -/
  sending : List Result
  /-- The hashes whose error was logged at line 198. -/
  logged : List Bytes
  started : List Bytes
  evaluated : List Bytes
  deriving DecidableEq, Repr

/-- What can happen next in a batch run. -/
inductive Event where
  /-- The main goroutine runs one iteration of the loop, or leaves the loop when the
  scanner has no line left. -/
  | scan
  /-- The call of `check` in the goroutine at position `i` of `checking` returns:
  `some found` without error, `none` with an error. -/
  | checked (i : Nat) (res : Option Bool)
  deriving DecidableEq, Repr

/-- The start of a batch run on the lines of the input file. -/
def Batch.start (lines : List Bytes) : Batch :=
  { status := .scanning, pending := lines, limit := 0, checking := [], sending := [],
    logged := [], started := [], evaluated := [] }

/-- One step of a batch run; `none` when the event cannot happen in this state.  After
`log.Fatal` or the return of `main` nothing happens.  A line is validated when it is
scanned (line 186); a valid line waits for room in `limit` (line 191) and is then handed
to a new goroutine.  A goroutine whose `check` failed logs and gives its token back
(lines 193 to 200); one whose `check` succeeded sends on `output` (line 202), and since
`output` is unbuffered and no statement of the program receives from it, it stays there
with its token. -/
def Batch.step (lib : Lib) (s : Batch) : Event → Option Batch
  | .scan =>
    if s.status ≠ .scanning then none
    else
      match s.pending with
      | [] => some { s with status := .returned }
      | line :: rest =>
        let hash := lib.trimSpace line
        if hash.length ≠ 32 then some { s with status := .fatal, pending := rest }
        else if s.limit < 10 then
          some { s with pending := rest, limit := s.limit + 1,
                        checking := s.checking ++ [hash], started := s.started ++ [hash] }
        else none
  | .checked i res =>
    if s.status ≠ .scanning then none
    else
      match s.checking[i]? with
      | none => none
      | some hash =>
        match res with
        | none =>
          some { s with checking := s.checking.eraseIdx i, limit := s.limit - 1,
                        logged := s.logged ++ [hash], evaluated := s.evaluated ++ [hash] }
        | some found =>
          some { s with checking := s.checking.eraseIdx i,
                        sending := s.sending ++ [{ hash := hash, found := found }],
                        evaluated := s.evaluated ++ [hash] }

/-- A run: the events of a schedule one after the other. -/
def Batch.run (lib : Lib) : Batch → List Event → Option Batch
  | s, [] => some s
  | s, e :: es =>
    match s.step lib e with
    | none => none
    | some s => Batch.run lib s es

/-- What every state of a batch run on `lines` satisfies. -/
structure BatchInv (lib : Lib) (lines : List Bytes) (s : Batch) : Prop where
  started_eq : s.started = (lines.take s.started.length).map lib.trimSpace
  started_le : s.started.length ≤ lines.length
  started_valid : ∀ l ∈ lines.take s.started.length, (lib.trimSpace l).length = 32
  pending_eq : s.status = .scanning → s.pending = lines.drop s.started.length
  fatal_at : s.status = .fatal →
    ∃ bad, lines[s.started.length]? = some bad ∧ (lib.trimSpace bad).length ≠ 32
  returned_at : s.status = .returned → s.started.length = lines.length
  evaluated_sub : ∀ h ∈ s.evaluated, h ∈ s.started
  limit_eq : s.limit = s.checking.length + s.sending.length
  limit_le : s.limit ≤ 10
  started_len : s.started.length = s.limit + s.logged.length
  checking_sub : ∀ h ∈ s.checking, h ∈ s.started

/-! ## The order on strings -/

theorem strLt_irrefl (a : Bytes) : strLt a a = false := by
  induction a with
  | nil => rfl
  | cons x xs ih => simp [strLt, ih]

theorem strLt_trans : ∀ (a b c : Bytes), strLt a b = true → strLt b c = true → strLt a c = true
  | [], [], _, h, _ => by simp [strLt] at h
  | [], _ :: _, [], _, h => by simp [strLt] at h
  | [], _ :: _, _ :: _, _, _ => by simp [strLt]
  | _ :: _, [], _, h, _ => by simp [strLt] at h
  | _ :: _, _ :: _, [], _, h => by simp [strLt] at h
  | x :: xs, y :: ys, z :: zs, h1, h2 => by
    simp only [strLt] at h1 h2 ⊢
    by_cases hxy : x < y
    · by_cases hyz : y < z
      · have : x < z := lt_trans hxy hyz
        simp [this]
      · by_cases hzy : z < y
        · simp [hyz, hzy] at h2
        · have : y = z := by omega
          subst this
          simp [hxy]
    · by_cases hyx : y < x
      · simp [hxy, hyx] at h1
      · have hxy2 : x = y := by omega
        subst hxy2
        simp only [hxy, if_false] at h1
        by_cases hxz : x < z
        · simp [hxz]
        · by_cases hzx : z < x
          · simp [hxz, hzx] at h2
          · simp only [hxz, hzx, if_false] at h2 ⊢
            exact strLt_trans xs ys zs h1 h2

theorem strLt_total : ∀ (a b : Bytes), strLt a b = false → strLt b a = false → a = b
  | [], [], _, _ => rfl
  | [], _ :: _, h, _ => by simp [strLt] at h
  | _ :: _, [], _, h => by simp [strLt] at h
  | x :: xs, y :: ys, h1, h2 => by
    simp only [strLt] at h1 h2
    by_cases hxy : x < y
    · simp [hxy] at h1
    · by_cases hyx : y < x
      · simp [hyx] at h2
      · have : x = y := by omega
        subst this
        simp only [hxy, if_false] at h1 h2
        rw [strLt_total xs ys h1 h2]

theorem strLt_of_lt_of_le (a b c : Bytes) (hab : strLt a b = true) (hbc : strLt c b = false) :
    strLt a c = true := by
  by_contra hne
  have hac : strLt a c = false := by simpa using hne
  by_cases hca : strLt c a = true
  · have := strLt_trans c a b hca hab
    simp [this] at hbc
  · have hca2 : strLt c a = false := by simpa using hca
    have := strLt_total a c hac hca2
    subst this
    simp [hab] at hbc

theorem strLt_of_le_of_lt (a b c : Bytes) (hab : strLt b a = false) (hbc : strLt b c = true) :
    strLt a c = true := by
  by_contra hne
  have hac : strLt a c = false := by simpa using hne
  by_cases hca : strLt c a = true
  · have := strLt_trans b c a hbc hca
    simp [this] at hab
  · have hca2 : strLt c a = false := by simpa using hca
    have := strLt_total a c hac hca2
    subst this
    simp [hbc] at hab

/-! ## Reading a record of a partition file -/

theorem partitionFile_length (rs : List Bytes) (hlen : ∀ r ∈ rs, r.length = 27) :
    (partitionFile rs).length = 28 * rs.length := by
  induction rs with
  | nil => rfl
  | cons r rs ih =>
    have h1 : r.length = 27 := hlen r (List.mem_cons_self _ _)
    have h2 := ih (fun x hx => hlen x (List.mem_cons_of_mem _ hx))
    simp only [partitionFile, List.length_append, List.length_cons, h1, h2]
    omega

theorem readAt_partitionFile (rs : List Bytes) (hlen : ∀ r ∈ rs, r.length = 27) :
    ∀ i, i < rs.length → readAt (partitionFile rs) (i * 28) 27 = (rs.getD i [], false) := by
  induction rs with
  | nil => intro i hi; simp at hi
  | cons r rs ih =>
    intro i hi
    have h1 : r.length = 27 := hlen r (List.mem_cons_self _ _)
    have h2 := ih (fun x hx => hlen x (List.mem_cons_of_mem _ hx))
    cases i with
    | zero =>
      have ht : List.take 27 (r ++ 10 :: partitionFile rs) = r := by
        rw [List.take_append_of_le_length (by omega)]
        exact List.take_of_length_le (by omega)
      have hne : r ≠ [] := by
        intro h; rw [h] at h1; simp at h1
      simp [readAt, partitionFile, ht, hne]
    | succ i =>
      have hi2 : i < rs.length := by simpa using hi
      have hd : List.drop ((i + 1) * 28) (r ++ 10 :: partitionFile rs)
          = List.drop (i * 28) (partitionFile rs) := by
        have e : (i + 1) * 28 = r.length + (i * 28 + 1) := by omega
        rw [e, List.drop_append, List.drop_succ_cons]
      have := h2 i hi2
      simp only [readAt, partitionFile] at this ⊢
      rw [hd]
      simpa using this

/-! ## The bisection loop -/

theorem readAt_full (file : Bytes) (m : Nat) (h : m * 28 + 27 ≤ file.length) :
    (readAt file (m * 28) 27).1.length = 27 ∧ (readAt file (m * 28) 27).2 = false := by
  have hl : ((file.drop (m * 28)).take 27).length = 27 := by
    simp only [List.length_take, List.length_drop]
    omega
  refine ⟨hl, ?_⟩
  simp only [readAt]
  cases hc : (file.drop (m * 28)).take 27 with
  | nil => rw [hc] at hl; simp at hl
  | cons x xs => rfl

theorem searchLoop_safe (file q : Bytes) :
    ∀ (fuel lower upper : Nat) (line : Bytes), upper - lower ≤ fuel →
      upper ≤ file.length / 28 →
      (∀ p ∈ (searchLoop file q fuel lower upper line).1,
          lower ≤ p.lower ∧ p.lower ≤ p.middle ∧ p.middle < p.upper ∧ p.upper ≤ upper) ∧
        ∃ l, (searchLoop file q fuel lower upper line).2 = .ok l := by
  intro fuel
  induction fuel with
  | zero =>
    intro lower upper line hf _
    have : ¬ (upper - lower ≥ 1) := by omega
    simp [searchLoop, this]
  | succ fuel ih =>
    intro lower upper line hf hu
    by_cases hr : upper - lower ≥ 1
    · have hm1 : lower ≤ (upper + lower) / 2 := by omega
      have hm2 : (upper + lower) / 2 < upper := by omega
      have hin : (upper + lower) / 2 * 28 + 27 ≤ file.length := by
        have := Nat.div_mul_le_self file.length 28
        have : ((upper + lower) / 2 + 1) * 28 ≤ file.length / 28 * 28 :=
          Nat.mul_le_mul_right 28 (by omega)
        omega
      obtain ⟨hlen, hnoerr⟩ := readAt_full file _ hin
      simp only [searchLoop, hr, if_true, hnoerr, hlen, ne_eq, not_true_eq_false, if_false,
        Bool.false_eq_true]
      by_cases h1 : strLt q (readAt file ((upper + lower) / 2 * 28) 27).1 = true
      · simp only [h1, if_true]
        obtain ⟨hp, l, hl⟩ := ih lower ((upper + lower) / 2)
          (readAt file ((upper + lower) / 2 * 28) 27).1 (by omega) (by omega)
        refine ⟨?_, l, hl⟩
        intro p hp2
        rcases List.mem_cons.1 hp2 with rfl | hp3
        · exact ⟨le_refl _, hm1, hm2, le_refl _⟩
        · have := hp p hp3
          omega
      · simp only [h1, if_false, Bool.false_eq_true]
        by_cases h2 : strLt (readAt file ((upper + lower) / 2 * 28) 27).1 q = true
        · simp only [h2, if_true]
          obtain ⟨hp, l, hl⟩ := ih ((upper + lower) / 2 + 1) upper
            (readAt file ((upper + lower) / 2 * 28) 27).1 (by omega) hu
          refine ⟨?_, l, hl⟩
          intro p hp2
          rcases List.mem_cons.1 hp2 with rfl | hp3
          · exact ⟨le_refl _, hm1, hm2, le_refl _⟩
          · have := hp p hp3
            omega
        · simp only [h2, if_false, Bool.false_eq_true]
          refine ⟨?_, _, rfl⟩
          intro p hp2
          rcases List.mem_singleton.1 hp2 with rfl
          exact ⟨le_refl _, hm1, hm2, le_refl _⟩
    · simp [searchLoop, hr]

theorem mem_iff_getD (rs : List Bytes) (q : Bytes) :
    q ∈ rs ↔ ∃ i, i < rs.length ∧ rs.getD i [] = q := by
  constructor
  · intro h
    obtain ⟨i, hi, e⟩ := List.getElem_of_mem h
    exact ⟨i, hi, by rw [List.getD_eq_getElem _ _ hi, e]⟩
  · rintro ⟨i, hi, e⟩
    rw [← e, List.getD_eq_getElem _ _ hi]
    exact List.getElem_mem _

theorem sorted_getD (rs : List Bytes) (hs : rs.Pairwise (fun a b => strLt b a = false)) :
    ∀ i j, i ≤ j → j < rs.length → strLt (rs.getD j []) (rs.getD i []) = false := by
  intro i j hij hj
  rcases Nat.eq_or_lt_of_le hij with rfl | hlt
  · exact strLt_irrefl _
  · have := List.pairwise_iff_getElem.1 hs i j (by omega) hj hlt
    rw [List.getD_eq_getElem _ _ hj, List.getD_eq_getElem _ _ (show i < rs.length by omega)]
    exact this

theorem searchLoop_sorted (rs : List Bytes) (q : Bytes) (hlen : ∀ r ∈ rs, r.length = 27)
    (hs : rs.Pairwise (fun a b => strLt b a = false)) :
    ∀ (fuel lower upper : Nat) (line : Bytes), upper - lower ≤ fuel → upper ≤ rs.length →
      (∀ i, i < lower → i < rs.length → strLt (rs.getD i []) q = true) →
      (∀ i, upper ≤ i → i < rs.length → strLt q (rs.getD i []) = true) →
      line ≠ q →
      ∃ l, (searchLoop (partitionFile rs) q fuel lower upper line).2 = .ok l ∧
        (q = l ↔ q ∈ rs) := by
  have hnot : ∀ lower upper, ¬ (upper - lower ≥ 1) →
      (∀ i, i < lower → i < rs.length → strLt (rs.getD i []) q = true) →
      (∀ i, upper ≤ i → i < rs.length → strLt q (rs.getD i []) = true) → q ∉ rs := by
    intro lower upper hr hlo hup hmem
    obtain ⟨i, hi, e⟩ := (mem_iff_getD rs q).1 hmem
    by_cases hil : i < lower
    · have := hlo i hil hi
      rw [e, strLt_irrefl] at this
      exact Bool.noConfusion this
    · have := hup i (by omega) hi
      rw [e, strLt_irrefl] at this
      exact Bool.noConfusion this
  intro fuel
  induction fuel with
  | zero =>
    intro lower upper line hf _ hlo hup hline
    have hr : ¬ (upper - lower ≥ 1) := by omega
    refine ⟨line, by simp [searchLoop, hr], ?_⟩
    constructor
    · intro h; exact absurd h.symm hline
    · intro h; exact absurd h (hnot lower upper hr hlo hup)
  | succ fuel ih =>
    intro lower upper line hf hu hlo hup hline
    by_cases hr : upper - lower ≥ 1
    · have hm2 : (upper + lower) / 2 < rs.length := by omega
      have hrd := readAt_partitionFile rs hlen _ hm2
      have hmlen : (rs.getD ((upper + lower) / 2) []).length = 27 := by
        rw [List.getD_eq_getElem _ _ hm2]
        exact hlen _ (List.getElem_mem _)
      simp only [searchLoop, hr, if_true, hrd, hmlen, ne_eq, not_true_eq_false, if_false,
        Bool.false_eq_true]
      by_cases h1 : strLt q (rs.getD ((upper + lower) / 2) []) = true
      · simp only [h1, if_true]
        apply ih lower ((upper + lower) / 2) _ (by omega) (by omega) hlo
        · intro i hi hil
          exact strLt_of_lt_of_le _ _ _ h1 (sorted_getD rs hs _ i hi hil)
        · intro h
          rw [h, strLt_irrefl] at h1
          exact Bool.noConfusion h1
      · simp only [h1, if_false, Bool.false_eq_true]
        by_cases h2 : strLt (rs.getD ((upper + lower) / 2) []) q = true
        · simp only [h2, if_true]
          apply ih ((upper + lower) / 2 + 1) upper _ (by omega) hu _ hup
          · intro h
            rw [h, strLt_irrefl] at h2
            exact Bool.noConfusion h2
          · intro i hi hil
            exact strLt_of_le_of_lt _ _ _ (sorted_getD rs hs i _ (by omega) hm2) h2
        · simp only [h2, if_false, Bool.false_eq_true]
          have heq : q = rs.getD ((upper + lower) / 2) [] :=
            strLt_total _ _ (by simpa using h1) (by simpa using h2)
          refine ⟨_, rfl, ?_⟩
          constructor
          · intro _
            exact (mem_iff_getD rs q).2 ⟨_, hm2, heq.symm⟩
          · intro _
            exact heq
    · refine ⟨line, by simp [searchLoop, hr], ?_⟩
      constructor
      · intro h; exact absurd h.symm hline
      · intro h; exact absurd h (hnot lower upper hr hlo hup)

theorem searchFile_probe_bounds (hash file : Bytes) :
    (∀ p ∈ (searchFile hash file).probes,
        p.lower ≤ p.middle ∧ p.middle < p.upper ∧ p.upper ≤ file.length / 28 ∧
        p.middle * 28 + 27 ≤ file.length ∧
        p.middle * 28 + 27 < file.length / 28 * 28 ∧
        p.upper + p.lower ≤ file.length ∧
        (readAt file (p.middle * 28) 27).1.length = 27 ∧
        (readAt file (p.middle * 28) 27).2 = false) ∧
    ∃ found, (searchFile hash file).result = .returned found := by
  obtain ⟨hp, l, hl⟩ := searchLoop_safe file (hash.drop 5) (file.length / 28) 0
    (file.length / 28) [] (by omega) (le_refl _)
  constructor
  · intro p hmem
    have h := hp p hmem
    have hdm := Nat.div_mul_le_self file.length 28
    have hmul : (p.middle + 1) * 28 ≤ file.length / 28 * 28 :=
      Nat.mul_le_mul_right 28 (by omega)
    have hin : p.middle * 28 + 27 ≤ file.length := by omega
    have hup : p.upper * 28 ≤ file.length / 28 * 28 := Nat.mul_le_mul_right 28 (by omega)
    obtain ⟨h1, h2⟩ := readAt_full file p.middle hin
    refine ⟨by omega, by omega, by omega, hin, by omega, by omega, h1, h2⟩
  · refine ⟨decide (hash.drop 5 = l), ?_⟩
    simp only [searchFile, hl]

/-! ## The registry of locks -/

theorem lookup_cons_ne (reg : Registry) (p q : Bytes) (n : Nat) (h : q ≠ p) :
    List.lookup p ((q, n) :: reg) = List.lookup p reg := by
  have : (p == q) = false := by
    simp only [beq_eq_false_iff_ne, ne_eq]
    exact fun e => h e.symm
  simp [List.lookup, this]

theorem lookup_cons_self (reg : Registry) (p : Bytes) (n : Nat) :
    List.lookup p ((p, n) :: reg) = some n := by
  simp [List.lookup]

theorem acquire_lookup_other (reg : Registry) (p q : Bytes) (h : q ≠ p) :
    (acquire reg q).registry.lookup p = reg.lookup p := by
  unfold acquire
  cases hq : List.lookup q reg with
  | none => exact lookup_cons_ne reg p q _ h
  | some l => rfl

theorem acquire_present (reg : Registry) (p : Bytes) (l : Nat) (h : reg.lookup p = some l) :
    acquire reg p = { registry := reg, lock := l, hold := .read } := by
  simp [acquire, h]

theorem acquire_absent (reg : Registry) (p : Bytes) (h : reg.lookup p = none) :
    acquire reg p
      = { registry := (p, reg.length) :: reg, lock := reg.length, hold := .write } := by
  simp [acquire, h]

theorem acquireAll_present (p : Bytes) (l : Nat) :
    ∀ (order : List Bytes) (reg : Registry), reg.lookup p = some l →
      (acquireAll reg order).1.lookup p = some l ∧
      (∀ r ∈ (acquireAll reg order).2, r.1 = p → r = (p, l, Hold.read)) ∧
      ((acquireAll reg order).2.filter (fun r => decide (r.1 = p))).length = order.count p := by
  intro order
  induction order with
  | nil => intro reg h; simp [acquireAll, h]
  | cons q order ih =>
    intro reg h
    by_cases hq : q = p
    · subst hq
      obtain ⟨h1, h2, h3⟩ := ih reg h
      simp only [acquireAll, acquire_present reg q l h]
      refine ⟨h1, ?_, ?_⟩
      · intro r hr hrp
        rcases List.mem_cons.1 hr with rfl | hr
        · rfl
        · exact h2 r hr hrp
      · simp [List.filter_cons, h3]
    · have hl : (acquire reg q).registry.lookup p = some l := by
        rw [acquire_lookup_other reg p q hq]; exact h
      obtain ⟨h1, h2, h3⟩ := ih _ hl
      simp only [acquireAll]
      refine ⟨h1, ?_, ?_⟩
      · intro r hr hrp
        rcases List.mem_cons.1 hr with rfl | hr
        · exact absurd hrp hq
        · exact h2 r hr hrp
      · simp [List.filter_cons, hq, h3, List.count_cons]

theorem acquireAll_absent (p : Bytes) :
    ∀ (order : List Bytes) (reg : Registry), reg.lookup p = none → p ∈ order →
      ∃ l rest,
        (acquireAll reg order).2.filter (fun r => decide (r.1 = p))
          = (p, l, Hold.write) :: rest ∧
        (∀ r ∈ rest, r = (p, l, Hold.read)) ∧
        rest.length + 1 = order.count p ∧
        ∀ later, (acquireAll reg (order ++ later)).1.lookup p = some l := by
  intro order
  induction order with
  | nil => intro reg _ hmem; simp at hmem
  | cons q order ih =>
    intro reg h hmem
    by_cases hq : q = p
    · subst hq
      have hl : List.lookup q ((q, reg.length) :: reg) = some reg.length :=
        lookup_cons_self reg q _
      obtain ⟨_, h2, h3⟩ := acquireAll_present q reg.length order _ hl
      refine ⟨reg.length, (acquireAll ((q, reg.length) :: reg) order).2.filter
        (fun r => decide (r.1 = q)), ?_, ?_, ?_, ?_⟩
      · simp [acquireAll, acquire_absent reg q h, List.filter_cons]
      · intro r hr
        have hr2 := List.mem_filter.1 hr
        exact h2 r hr2.1 (by simpa using hr2.2)
      · simp [h3, List.count_cons]
      · intro later
        simp only [List.cons_append, acquireAll, acquire_absent reg q h]
        exact (acquireAll_present q reg.length (order ++ later) _ hl).1
    · have hmem2 : p ∈ order := by
        rcases List.mem_cons.1 hmem with e | e
        · exact absurd e.symm hq
        · exact e
      have hl : (acquire reg q).registry.lookup p = none := by
        rw [acquire_lookup_other reg p q hq]; exact h
      obtain ⟨l, rest, h1, h2, h3, h4⟩ := ih _ hl hmem2
      refine ⟨l, rest, ?_, h2, ?_, ?_⟩
      · simp only [acquireAll, List.filter_cons]
        simp [hq, h1]
      · simp [h3, List.count_cons, hq]
      · intro later
        simp only [List.cons_append, acquireAll]
        exact h4 later

/-! ## `check`: the request and the state it leaves -/

theorem toUpper_take (h : Bytes) (n : Nat) : (toUpper h).take n = toUpper (h.take n) := by
  simp [toUpper, List.map_take]

theorem check_of_registered (lib : Lib) (net : Request → NetResponse) (w : World)
    (hash : Bytes) (l : Nat)
    (h : w.searchedPrefixes.lookup ((toUpper hash).take 5) = some l) :
    check lib net w hash
      = { world := w, requests := []
          result := searchData w.files ((toUpper hash).take 5) (toUpper hash) } := by
  simp [check, acquire_present _ _ l h]

/-- The registry after the check of the first caller of a prefix, and the files it may
have written: no other path than the two of its prefix changes. -/
theorem check_of_absent (lib : Lib) (net : Request → NetResponse) (w : World) (hash : Bytes)
    (h : w.searchedPrefixes.lookup ((toUpper hash).take 5) = none) :
    (check lib net w hash).world.searchedPrefixes
        = ((toUpper hash).take 5, w.searchedPrefixes.length) :: w.searchedPrefixes ∧
    (∀ p, p ≠ etagPath ((toUpper hash).take 5) → p ≠ dataPath ((toUpper hash).take 5) →
      (check lib net w hash).world.files p = w.files p) ∧
    (check lib net w hash).requests
      = if lib.newRequestOK (rangeRequest ((toUpper hash).take 5)
            (attemptLoadEtag lib w.files ((toUpper hash).take 5))).url = true then
          [rangeRequest ((toUpper hash).take 5)
            (attemptLoadEtag lib w.files ((toUpper hash).take 5))]
        else [] := by
  simp only [check, acquire_absent _ _ h]
  split
  · next hbad => simp [hbad]
  · next hgood =>
    have hg : lib.newRequestOK (rangeRequest ((toUpper hash).take 5)
        (attemptLoadEtag lib w.files ((toUpper hash).take 5))).url = true := by
      simpa using hgood
    simp only [hg, if_true]
    split
    · exact ⟨rfl, fun _ _ _ => rfl, rfl⟩
    · split
      · exact ⟨rfl, fun _ _ _ => rfl, rfl⟩
      · split
        · refine ⟨rfl, ?_, rfl⟩
          intro p h1 h2
          simp [Files.write, h1, h2]
        · split
          · refine ⟨rfl, ?_, rfl⟩
            intro p h1 h2
            simp [Files.write, h1, h2]
          · refine ⟨rfl, ?_, rfl⟩
            intro p h1 h2
            simp [Files.write, h1, h2]

theorem check_requests (lib : Lib) (net : Request → NetResponse) (w : World)
    (hash : Bytes) :
    (check lib net w hash).requests =
      if (w.searchedPrefixes.lookup ((toUpper hash).take 5)).isSome then []
      else if lib.newRequestOK (rangeRequest ((toUpper hash).take 5)
            (attemptLoadEtag lib w.files ((toUpper hash).take 5))).url = true then
          [rangeRequest ((toUpper hash).take 5)
            (attemptLoadEtag lib w.files ((toUpper hash).take 5))]
        else [] := by
  cases hl : w.searchedPrefixes.lookup ((toUpper hash).take 5) with
  | some l => rw [check_of_registered lib net w hash l hl]; rfl
  | none =>
    rw [(check_of_absent lib net w hash hl).2.2]
    simp

theorem check_registers (lib : Lib) (net : Request → NetResponse) (w : World)
    (hash : Bytes) :
    ∃ l, (check lib net w hash).world.searchedPrefixes.lookup ((toUpper hash).take 5)
      = some l := by
  cases hl : w.searchedPrefixes.lookup ((toUpper hash).take 5) with
  | some l => exact ⟨l, by rw [check_of_registered lib net w hash l hl]; exact hl⟩
  | none =>
    refine ⟨w.searchedPrefixes.length, ?_⟩
    rw [(check_of_absent lib net w hash hl).1]
    exact lookup_cons_self _ _ _

theorem searchData_result (fs : Files) (pfx hash : Bytes) :
    (fs (dataPath pfx) = none ∧ searchData fs pfx hash = .error .openData) ∨
    ∃ f, fs (dataPath pfx) = some f ∧
      searchData fs pfx hash = .ok (decide ((searchFile hash f).result = .returned true)) := by
  cases hf : fs (dataPath pfx) with
  | none => left; simp [searchData, hf]
  | some f =>
    right
    refine ⟨f, rfl, ?_⟩
    obtain ⟨found, hfound⟩ := (searchFile_probe_bounds hash f).2
    simp only [searchData, hf, hfound, CheckResult.ofSearch]
    cases found <;> simp

/-! ## The paths of different prefixes -/

theorem dataPath_injective (p q : Bytes) (h : dataPath p = dataPath q) : p = q := by
  unfold dataPath at h
  have h1 := List.append_cancel_left (List.append_cancel_right h)
  exact (List.cons.inj h1).2

theorem dataPath_ne_etagPath (p q : Bytes) : dataPath p ≠ etagPath q := by
  intro h
  unfold dataPath etagPath at h
  have h1 := (List.append_inj' h (by decide)).2
  revert h1
  decide

/-! ## What later checks keep -/

/-- A check of any hash keeps the registration of a registered prefix and the data file of
that prefix. -/
theorem check_keeps (lib : Lib) (net : Request → NetResponse) (w : World) (hash p : Bytes)
    (l : Nat) (hreg : w.searchedPrefixes.lookup p = some l) :
    (check lib net w hash).world.searchedPrefixes.lookup p = some l ∧
    (check lib net w hash).world.files (dataPath p) = w.files (dataPath p) := by
  cases hl : w.searchedPrefixes.lookup ((toUpper hash).take 5) with
  | some l2 =>
    rw [check_of_registered lib net w hash l2 hl]
    exact ⟨hreg, rfl⟩
  | none =>
    have hne : (toUpper hash).take 5 ≠ p := by
      intro e
      rw [e, hreg] at hl
      exact Option.noConfusion hl
    obtain ⟨h1, h2, _⟩ := check_of_absent lib net w hash hl
    constructor
    · rw [h1, lookup_cons_ne _ _ _ _ hne]
      exact hreg
    · exact h2 _ (dataPath_ne_etagPath _ _)
        (fun e => hne (dataPath_injective _ _ e).symm)

theorem checks_keeps (lib : Lib) (p : Bytes) (l : Nat) :
    ∀ (calls : List ((Request → NetResponse) × Bytes)) (w : World),
      w.searchedPrefixes.lookup p = some l →
      (checks lib w calls).searchedPrefixes.lookup p = some l ∧
      (checks lib w calls).files (dataPath p) = w.files (dataPath p) := by
  intro calls
  induction calls with
  | nil => intro w h; exact ⟨h, rfl⟩
  | cons call calls ih =>
    intro w h
    obtain ⟨h1, h2⟩ := check_keeps lib call.1 w call.2 p l h
    obtain ⟨h3, h4⟩ := ih _ h1
    simp only [checks]
    exact ⟨h3, h4.trans h2⟩

/-! ## The batch loop -/

theorem batchInv_start (lib : Lib) (lines : List Bytes) :
    BatchInv lib lines (Batch.start lines) where
  started_eq := by simp [Batch.start]
  started_le := by simp [Batch.start]
  started_valid := by simp [Batch.start]
  pending_eq := by simp [Batch.start]
  fatal_at := by simp [Batch.start]
  returned_at := by simp [Batch.start]
  evaluated_sub := by simp [Batch.start]
  limit_eq := by simp [Batch.start]
  limit_le := by simp [Batch.start]
  started_len := by simp [Batch.start]
  checking_sub := by simp [Batch.start]

theorem take_succ_of_drop (lines : List Bytes) (k : Nat) (line : Bytes) (rest : List Bytes)
    (h : lines.drop k = line :: rest) :
    lines.take (k + 1) = lines.take k ++ [line] ∧ lines.drop (k + 1) = rest ∧
      k < lines.length ∧ lines[k]? = some line := by
  have hk : k < lines.length := by
    by_contra hn
    rw [List.drop_eq_nil_of_le (by omega)] at h
    exact List.noConfusion h
  have hget : lines[k] = line := by
    have := List.drop_eq_getElem_cons hk
    rw [h] at this
    exact (List.cons.inj this).1.symm
  refine ⟨?_, ?_, hk, ?_⟩
  · rw [List.take_succ, List.getElem?_eq_getElem hk, hget]
    rfl
  · have := List.drop_eq_getElem_cons hk
    rw [h] at this
    exact (List.cons.inj this).2.symm
  · rw [List.getElem?_eq_getElem hk, hget]

theorem batchInv_step (lib : Lib) (lines : List Bytes) (s t : Batch) (e : Event)
    (inv : BatchInv lib lines s) (hstep : s.step lib e = some t) : BatchInv lib lines t := by
  cases e with
  | scan =>
    simp only [Batch.step] at hstep
    by_cases hst : s.status = .scanning
    · simp only [hst, ne_eq, not_true_eq_false, if_false] at hstep
      have hpend := inv.pending_eq hst
      cases hp : s.pending with
      | nil =>
        simp only [hp] at hstep
        have ht := (Option.some.inj hstep).symm
        subst ht
        have hlen : s.started.length = lines.length := by
          have h0 : lines.drop s.started.length = [] := by rw [← hpend, hp]
          have := List.drop_eq_nil_iff.1 h0
          have := inv.started_le
          omega
        exact { inv with
          pending_eq := by intro h; exact MainStatus.noConfusion h
          fatal_at := by intro h; exact MainStatus.noConfusion h
          returned_at := fun _ => hlen }
      | cons line rest =>
        simp only [hp] at hstep
        have hdrop : lines.drop s.started.length = line :: rest := by rw [← hpend, hp]
        obtain ⟨htake, hdrop2, hk, hget⟩ := take_succ_of_drop lines _ line rest hdrop
        by_cases hv : (lib.trimSpace line).length = 32
        · simp only [hv, ne_eq, not_true_eq_false, if_false] at hstep
          by_cases hlim : s.limit < 10
          · simp only [hlim, if_true] at hstep
            have ht := (Option.some.inj hstep).symm
            subst ht
            refine
              { started_eq := ?_, started_le := ?_, started_valid := ?_, pending_eq := ?_,
                fatal_at := ?_, returned_at := ?_, evaluated_sub := ?_, limit_eq := ?_,
                limit_le := ?_, started_len := ?_, checking_sub := ?_ }
            · simp only [List.length_append, List.length_singleton, htake, List.map_append,
                List.map_cons, List.map_nil]
              rw [← inv.started_eq]
            · simp only [List.length_append, List.length_singleton]; omega
            · intro l hl
              simp only [List.length_append, List.length_singleton, htake,
                List.mem_append, List.mem_singleton] at hl
              rcases hl with hl | rfl
              · exact inv.started_valid l hl
              · exact hv
            · intro _
              simp only [List.length_append, List.length_singleton]
              exact hdrop2.symm
            · intro h; exact MainStatus.noConfusion h
            · intro h; exact MainStatus.noConfusion h
            · intro h hh
              exact List.mem_append_left _ (inv.evaluated_sub h hh)
            · simp only [List.length_append, List.length_singleton]
              have := inv.limit_eq
              omega
            · show s.limit + 1 ≤ 10
              omega
            · simp only [List.length_append, List.length_singleton]
              have := inv.started_len
              omega
            · intro h hh
              simp only [List.mem_append, List.mem_singleton] at hh ⊢
              rcases hh with hh | rfl
              · exact Or.inl (inv.checking_sub h hh)
              · exact Or.inr rfl
          · simp [hlim] at hstep
        · simp only [hv, ne_eq, not_false_eq_true, if_true] at hstep
          have ht := (Option.some.inj hstep).symm
          subst ht
          exact { inv with
            pending_eq := by intro h; exact MainStatus.noConfusion h
            fatal_at := fun _ => ⟨line, hget, hv⟩
            returned_at := by intro h; exact MainStatus.noConfusion h }
    · simp [hst] at hstep
  | checked i res =>
    simp only [Batch.step] at hstep
    by_cases hst : s.status = .scanning
    · simp only [hst, ne_eq, not_true_eq_false, if_false] at hstep
      cases hg : s.checking[i]? with
      | none => simp [hg] at hstep
      | some hash =>
        simp only [hg] at hstep
        have hi : i < s.checking.length := (List.getElem?_eq_some_iff.1 hg).1
        have hmem : hash ∈ s.checking := List.getElem?_mem hg
        have hlen : (s.checking.eraseIdx i).length = s.checking.length - 1 := by
          rw [List.length_eraseIdx]
          simp [hi]
        have hsub : ∀ h ∈ s.checking.eraseIdx i, h ∈ s.started := fun h hh =>
          inv.checking_sub h (List.mem_of_mem_eraseIdx hh)
        have hev : ∀ h ∈ s.evaluated ++ [hash], h ∈ s.started := by
          intro h hh
          simp only [List.mem_append, List.mem_singleton] at hh
          rcases hh with hh | rfl
          · exact inv.evaluated_sub h hh
          · exact inv.checking_sub _ hmem
        have h1 := inv.limit_eq
        have h2 := inv.limit_le
        have h3 := inv.started_len
        cases res with
        | none =>
          simp only at hstep
          have ht := (Option.some.inj hstep).symm
          subst ht
          exact
            { started_eq := inv.started_eq, started_le := inv.started_le
              started_valid := inv.started_valid, pending_eq := fun _ => inv.pending_eq hst
              fatal_at := fun h => MainStatus.noConfusion h
              returned_at := fun h => MainStatus.noConfusion h
              evaluated_sub := hev
              limit_eq := by
                show s.limit - 1 = (s.checking.eraseIdx i).length + s.sending.length
                omega
              limit_le := by show s.limit - 1 ≤ 10; omega
              started_len := by
                show s.started.length = s.limit - 1 + (s.logged ++ [hash]).length
                simp only [List.length_append, List.length_singleton]
                omega
              checking_sub := hsub }
        | some found =>
          simp only at hstep
          have ht := (Option.some.inj hstep).symm
          subst ht
          exact
            { started_eq := inv.started_eq, started_le := inv.started_le
              started_valid := inv.started_valid, pending_eq := fun _ => inv.pending_eq hst
              fatal_at := fun h => MainStatus.noConfusion h
              returned_at := fun h => MainStatus.noConfusion h
              evaluated_sub := hev
              limit_eq := by
                show s.limit = (s.checking.eraseIdx i).length
                  + (s.sending ++ [(⟨hash, found⟩ : Result)]).length
                simp only [List.length_append, List.length_singleton]
                omega
              limit_le := h2
              started_len := h3
              checking_sub := hsub }
    · simp [hst] at hstep

theorem batchInv_run (lib : Lib) (lines : List Bytes) :
    ∀ (evs : List Event) (s t : Batch), BatchInv lib lines s → s.run lib evs = some t →
      BatchInv lib lines t := by
  intro evs
  induction evs with
  | nil =>
    intro s t inv h
    simp only [Batch.run] at h
    exact (Option.some.inj h) ▸ inv
  | cons e evs ih =>
    intro s t inv h
    simp only [Batch.run] at h
    cases hs : s.step lib e with
    | none => simp [hs] at h
    | some u =>
      simp only [hs] at h
      exact ih u t (batchInv_step lib lines s u e inv hs) h

/-- Without a failed check nothing is logged. -/
theorem run_logged_nil (lib : Lib) :
    ∀ (evs : List Event) (s t : Batch), s.logged = [] → s.run lib evs = some t →
      (∀ e ∈ evs, ∀ i, e ≠ Event.checked i none) → t.logged = [] := by
  intro evs
  induction evs with
  | nil =>
    intro s t hl h _
    simp only [Batch.run] at h
    exact (Option.some.inj h) ▸ hl
  | cons e evs ih =>
    intro s t hl h hev
    simp only [Batch.run] at h
    cases hs : s.step lib e with
    | none => simp [hs] at h
    | some u =>
      simp only [hs] at h
      refine ih u t ?_ h (fun e2 he2 => hev e2 (List.mem_cons_of_mem _ he2))
      cases e with
      | scan =>
        simp only [Batch.step] at hs
        split at hs
        · exact Option.noConfusion hs
        · split at hs
          · rw [← Option.some.inj hs]; exact hl
          · split at hs
            · rw [← Option.some.inj hs]; exact hl
            · split at hs
              · rw [← Option.some.inj hs]; exact hl
              · exact Option.noConfusion hs
      | checked i res =>
        cases res with
        | none => exact absurd rfl (hev _ (List.mem_cons_self _ _) i)
        | some found =>
          simp only [Batch.step] at hs
          split at hs
          · exact Option.noConfusion hs
          · split at hs
            · exact Option.noConfusion hs
            · rw [← Option.some.inj hs]; exact hl

theorem step_none_of_ended (lib : Lib) (s : Batch) (e : Event) (h : s.status ≠ .scanning) :
    s.step lib e = none := by
  cases e <;> simp [Batch.step, h]

/-! ## The wrapped reader -/

theorem Source.Read_nil (r : Source) (len : Nat) (h : r.data = []) :
    r.Read len = ([], some r.ending, r) := by
  simp [Source.Read, h]

theorem Source.Read_cons (r : Source) (len : Nat) (h : r.data ≠ []) :
    r.Read len =
      (r.data.take (min len (r.chunk + 1)),
        if r.eager && (r.data.drop (min len (r.chunk + 1))).isEmpty then some r.ending
        else none,
        { r with data := r.data.drop (min len (r.chunk + 1)) }) := by
  cases hd : r.data with
  | nil => exact absurd hd h
  | cons c cs => simp only [Source.Read, hd]

/-- A call that reports no error delivers at least one byte, and what it delivers is
taken off the front of the data. -/
theorem Source.Read_ok (r : Source) (len : Nat) (hlen : 1 ≤ len)
    (h : (r.Read len).2.1 = none) :
    1 ≤ (r.Read len).1.length ∧ (r.Read len).1.length ≤ len ∧
    (r.Read len).2.2.data.length + (r.Read len).1.length = r.data.length ∧
    r.data = (r.Read len).1 ++ (r.Read len).2.2.data := by
  by_cases hd : r.data = []
  · rw [Source.Read_nil r len hd] at h
    exact Option.noConfusion h
  · rw [Source.Read_cons r len hd]
    have hpos : 1 ≤ r.data.length := by
      cases hc : r.data with
      | nil => exact absurd hc hd
      | cons c cs => simp
    simp only [List.length_take, List.length_drop, List.take_append_drop]
    refine ⟨by omega, by omega, by omega, trivial⟩

/-! ## Every call of `Stripper.Read` returns -/

theorem readSuffix_total :
    ∀ (fuel : Nat) (r : Source) (leftOver : Bytes) (read : Nat), 27 - read ≤ fuel →
      ∃ x, readSuffix fuel r leftOver read = some x := by
  intro fuel
  induction fuel with
  | zero =>
    intro r leftOver read hf
    have : ¬ read < 27 := by omega
    exact ⟨.filled r leftOver, by simp [readSuffix, this]⟩
  | succ fuel ih =>
    intro r leftOver read hf
    by_cases hr : read < 27
    · simp only [readSuffix, hr, if_true]
      cases he : (r.Read (27 - read)).2.1 with
      | some err => exact ⟨_, rfl⟩
      | none =>
        have hok := Source.Read_ok r (27 - read) (by omega) he
        exact ih _ _ _ (by omega)
    · exact ⟨.filled r leftOver, by simp [readSuffix, hr]⟩

/-- When the loop fills the suffix, it has taken the missing bytes from the reader and
the staging area keeps its 28 bytes. -/
theorem readSuffix_filled_length :
    ∀ (fuel : Nat) (r : Source) (leftOver : Bytes) (read : Nat) (r2 : Source)
      (leftOver2 : Bytes), read ≤ 27 → leftOver.length = 28 →
      readSuffix fuel r leftOver read = some (.filled r2 leftOver2) →
      r2.data.length + (27 - read) = r.data.length ∧ leftOver2.length = 28 := by
  intro fuel
  induction fuel with
  | zero =>
    intro r leftOver read r2 leftOver2 hr hl h
    by_cases hlt : read < 27
    · simp [readSuffix, hlt] at h
    · simp only [readSuffix, hlt, if_false, Option.some.injEq, SuffixRead.filled.injEq] at h
      obtain ⟨rfl, rfl⟩ := h
      exact ⟨by omega, hl⟩
  | succ fuel ih =>
    intro r leftOver read r2 leftOver2 hr hl h
    by_cases hlt : read < 27
    · simp only [readSuffix, hlt, if_true] at h
      cases he : (r.Read (27 - read)).2.1 with
      | some err => simp [he] at h
      | none =>
        simp only [he] at h
        have hok := Source.Read_ok r (27 - read) (by omega) he
        have hl2 : (List.take read leftOver ++ (r.Read (27 - read)).1
            ++ List.drop (read + (r.Read (27 - read)).1.length) leftOver).length = 28 := by
          simp only [List.length_append, List.length_take, List.length_drop]
          omega
        have := ih _ _ _ r2 leftOver2 (by omega) hl2 h
        omega
    · simp only [readSuffix, hlt, if_false, Option.some.injEq, SuffixRead.filled.injEq] at h
      obtain ⟨rfl, rfl⟩ := h
      exact ⟨by omega, hl⟩

theorem discardLine_total :
    ∀ (fuel : Nat) (r : Source) (single : Bytes), r.data.length + 1 ≤ fuel →
      ∃ x, discardLine fuel r single = some x := by
  intro fuel
  induction fuel with
  | zero => intro r single hf; omega
  | succ fuel ih =>
    intro r single hf
    simp only [discardLine]
    cases he : (r.Read 1).2.1 with
    | some err => exact ⟨_, rfl⟩
    | none =>
      have hok := Source.Read_ok r 1 (le_refl _) he
      simp only
      split
      · exact ⟨_, rfl⟩
      · exact ih _ _ (by omega)

theorem discardLine_length :
    ∀ (fuel : Nat) (r : Source) (single : Bytes) (r2 : Source),
      discardLine fuel r single = some (none, r2) → r2.data.length + 1 ≤ r.data.length := by
  intro fuel
  induction fuel with
  | zero => intro r single r2 h; simp [discardLine] at h
  | succ fuel ih =>
    intro r single r2 h
    simp only [discardLine] at h
    cases he : (r.Read 1).2.1 with
    | some err => simp [he] at h
    | none =>
      have hok := Source.Read_ok r 1 (le_refl _) he
      simp only [he] at h
      split at h
      · simp only [Option.some.injEq, Prod.mk.injEq, true_and] at h
        rw [← h]
        omega
      · have := ih _ _ r2 h
        omega

theorem Stripper.Read_total (s : Stripper) (b : Bytes) : ∃ ret, s.Read b = some ret := by
  unfold Stripper.Read
  by_cases hl : s.leftOver.length > 0
  · simp only [hl, if_true]
    exact ⟨_, rfl⟩
  · rw [if_neg hl]
    obtain ⟨x, hx⟩ := readSuffix_total 27 s.r (List.replicate 27 0 ++ [10]) 0 (by omega)
    rw [hx]
    cases x with
    | failed n err r leftOver => exact ⟨_, rfl⟩
    | filled r leftOver =>
      obtain ⟨y, hy⟩ := discardLine_total (r.data.length + 1) r [0] (le_refl _)
      simp only [hy]
      exact ⟨_, rfl⟩

/-- A call without error keeps the size of the buffer and makes the reader's data
together with the staged bytes shorter. -/
theorem Stripper.Read_progress (s : Stripper) (b : Bytes) (ret : ReadReturn)
    (hb : 1 ≤ b.length) (h : s.Read b = some ret) (herr : ret.err = none) :
    ret.b.length = b.length ∧
    ret.s.r.data.length + ret.s.leftOver.length < s.r.data.length + s.leftOver.length := by
  unfold Stripper.Read at h
  by_cases hl : s.leftOver.length > 0
  · simp only [hl, if_true, Option.some.injEq] at h
    subst h
    simp only [copyInto, List.length_append, List.length_take, List.length_drop]
    omega
  · rw [if_neg hl] at h
    cases hx : readSuffix 27 s.r (List.replicate 27 0 ++ [10]) 0 with
    | none => rw [hx] at h; exact Option.noConfusion h
    | some x =>
      rw [hx] at h
      cases x with
      | failed n err r leftOver =>
        simp only [Option.some.injEq] at h
        subst h
        exact Option.noConfusion herr
      | filled r leftOver =>
        simp only at h
        obtain ⟨h1, h2⟩ := readSuffix_filled_length 27 s.r _ 0 r leftOver (by omega)
          (by simp) hx
        cases hy : discardLine (r.data.length + 1) r [0] with
        | none => rw [hy] at h; exact Option.noConfusion h
        | some y =>
          obtain ⟨err, r2⟩ := y
          rw [hy] at h
          simp only [Option.some.injEq] at h
          subst h
          simp only at herr
          subst herr
          have h3 := discardLine_length _ r [0] r2 hy
          simp only [copyInto, List.length_append, List.length_take, List.length_drop]
          omega

theorem readAll_total :
    ∀ (fuel : Nat) (s : Stripper) (b received : Bytes), 1 ≤ b.length →
      s.r.data.length + s.leftOver.length + 1 ≤ fuel →
      ∃ x, readAll fuel s b received = some x := by
  intro fuel
  induction fuel with
  | zero => intro s b received _ hf; omega
  | succ fuel ih =>
    intro s b received hb hf
    obtain ⟨ret, hret⟩ := Stripper.Read_total s b
    simp only [readAll, hret]
    cases he : ret.err with
    | some err => exact ⟨_, rfl⟩
    | none =>
      obtain ⟨h1, h2⟩ := Stripper.Read_progress s b ret hb hret he
      exact ih _ _ _ (by omega) (by omega)

theorem readAll_mono :
    ∀ (fuel : Nat) (s : Stripper) (b received : Bytes) (x : Bytes × ReadErr) (k : Nat),
      readAll fuel s b received = some x → readAll (fuel + k) s b received = some x := by
  intro fuel
  induction fuel with
  | zero => intro s b received x k h; simp [readAll] at h
  | succ fuel ih =>
    intro s b received x k h
    have e : fuel + 1 + k = (fuel + k) + 1 := by omega
    rw [e]
    simp only [readAll] at h ⊢
    cases hret : s.Read b with
    | none => simp [hret] at h
    | some ret =>
      simp only [hret] at h ⊢
      cases he : ret.err with
      | some err => simpa [he] using h
      | none =>
        simp only [he] at h ⊢
        exact ih _ _ _ x k h

/-! ## `Stripper.Read` on a line of the wire format -/

theorem stage_step (lo data : Bytes) (read n : Nat) (hl : lo.length = 28)
    (hn : read + n ≤ 27) (hd : n ≤ data.length) :
    (lo.take read ++ data.take n ++ lo.drop (read + n)).take (read + n)
        ++ (data.drop n).take (27 - (read + n))
        ++ (lo.take read ++ data.take n ++ lo.drop (read + n)).drop 27
      = lo.take read ++ data.take (27 - read) ++ lo.drop 27 := by
  have hA : (lo.take read ++ data.take n).length = read + n := by
    simp only [List.length_append, List.length_take]
    omega
  have h1 : (lo.take read ++ data.take n ++ lo.drop (read + n)).take (read + n)
      = lo.take read ++ data.take n := List.take_left' hA
  have h2 : (lo.take read ++ data.take n ++ lo.drop (read + n)).drop 27 = lo.drop 27 := by
    have e : 27 = (lo.take read ++ data.take n).length + (27 - (read + n)) := by omega
    conv_lhs => rw [e]
    rw [List.drop_append, List.drop_drop]
    congr 1
    omega
  have h3 : data.take (27 - read) = data.take n ++ (data.drop n).take (27 - (read + n)) := by
    have e : 27 - read = n + (27 - (read + n)) := by omega
    conv_lhs => rw [e]
    exact List.take_add data n _
  rw [h1, h2, h3]
  simp only [List.append_assoc]

/-- When the reader holds more bytes than the suffix still needs, the loop fills the
suffix with them, whatever the size of the pieces the reader delivers. -/
theorem readSuffix_fills :
    ∀ (fuel : Nat) (r : Source) (lo : Bytes) (read : Nat), 27 - read ≤ fuel → read ≤ 27 →
      lo.length = 28 → 27 - read < r.data.length →
      readSuffix fuel r lo read
        = some (.filled { r with data := r.data.drop (27 - read) }
            (lo.take read ++ r.data.take (27 - read) ++ lo.drop 27)) := by
  intro fuel
  induction fuel with
  | zero =>
    intro r lo read hf hr hl hd
    have h27 : ¬ read < 27 := by omega
    have e : 27 - read = 0 := by omega
    have e2 : read = 27 := by omega
    simp [readSuffix, h27, e, e2]
  | succ fuel ih =>
    intro r lo read hf hr hl hd
    by_cases hlt : read < 27
    · have hne : r.data ≠ [] := by
        intro h0; rw [h0] at hd; simp at hd
      have hmin1 : 1 ≤ min (27 - read) (r.chunk + 1) := by omega
      have hmin2 : min (27 - read) (r.chunk + 1) ≤ 27 - read := by omega
      have hrest : (r.data.drop (min (27 - read) (r.chunk + 1))).isEmpty = false := by
        cases hc : r.data.drop (min (27 - read) (r.chunk + 1)) with
        | nil =>
          have := congrArg List.length hc
          simp only [List.length_drop, List.length_nil] at this
          omega
        | cons c cs => rfl
      have htl : (r.data.take (min (27 - read) (r.chunk + 1))).length
          = min (27 - read) (r.chunk + 1) := by
        simp only [List.length_take]
        omega
      simp only [readSuffix, hlt, if_true, Source.Read_cons r _ hne, hrest, Bool.and_false,
        Bool.false_eq_true, if_false, htl]
      rw [ih _ _ _ (by omega) (by omega)
        (by simp only [List.length_append, List.length_take, List.length_drop]; omega)
        (by simp only [List.length_drop]; omega)]
      simp only [List.drop_drop]
      have e1 : min (27 - read) (r.chunk + 1) + (27 - (read + min (27 - read) (r.chunk + 1)))
          = 27 - read := by omega
      rw [e1, stage_step lo r.data read _ hl (by omega) (by omega)]
    · have e : 27 - read = 0 := by omega
      have e2 : read = 27 := by omega
      simp [readSuffix, hlt, e, e2]

/-- The loop that discards the rest of a line stops after the first newline; it reports
the reader's error when the reader reports it together with that newline. -/
theorem discardLine_newline :
    ∀ (junk : Bytes) (fuel : Nat) (r : Source) (single rest : Bytes),
      r.data = junk ++ 10 :: rest → 10 ∉ junk → single.length = 1 → junk.length + 1 ≤ fuel →
      discardLine fuel r single
        = some (if r.eager && rest.isEmpty then some r.ending else none,
            { r with data := rest }) := by
  intro junk
  induction junk with
  | nil =>
    intro fuel r single rest hd _ hs hf
    cases fuel with
    | zero => omega
    | succ fuel =>
      have hne : r.data ≠ [] := by rw [hd]; simp
      have hm : min 1 (r.chunk + 1) = 1 := by omega
      obtain ⟨x, hx⟩ : ∃ x, single = [x] := List.length_eq_one.1 hs
      simp only [discardLine, Source.Read_cons r 1 hne, hm, hd, List.nil_append,
        List.take_succ_cons, List.take_zero, List.drop_succ_cons, List.drop_zero]
      by_cases he : (r.eager && rest.isEmpty) = true
      · simp [he]
      · simp [he, hx, copyInto]
  | cons c junk ih =>
    intro fuel r single rest hd hj hs hf
    cases fuel with
    | zero => omega
    | succ fuel =>
      have hne : r.data ≠ [] := by rw [hd]; simp
      have hm : min 1 (r.chunk + 1) = 1 := by omega
      obtain ⟨x, hx⟩ : ∃ x, single = [x] := List.length_eq_one.1 hs
      have hc : c ≠ 10 := by
        intro h; exact hj (by simp [h])
      have hj2 : 10 ∉ junk := fun h => hj (List.mem_cons_of_mem _ h)
      simp only [discardLine, Source.Read_cons r 1 hne, hm, hd, List.cons_append,
        List.take_succ_cons, List.take_zero, List.drop_succ_cons, List.drop_zero]
      have hemp : (junk ++ 10 :: rest).isEmpty = false := by
        cases junk <;> rfl
      simp only [hemp, Bool.and_false, Bool.false_eq_true, if_false]
      have hcp : (copyInto single [c]).1 = [c] := by simp [hx, copyInto]
      simp only [hcp, List.head?_cons, Option.some.injEq, hc, if_false]
      rw [ih fuel { r with data := junk ++ 10 :: rest } [c] rest rfl hj2 rfl
        (by simp only [List.length_cons] at hf; omega)]

theorem Stripper.Read_line (r : Source) (b suffix junk rest : Bytes)
    (hd : r.data = suffix ++ junk ++ 10 :: rest) (hs : suffix.length = 27)
    (hj : 10 ∉ junk) :
    Stripper.Read { r := r, leftOver := [] } b
      = some
        { b := (copyInto b (suffix ++ [10])).1
          n := (copyInto b (suffix ++ [10])).2
          err := if r.eager && rest.isEmpty then some r.ending else none
          s := { r := { r with data := rest }
                 leftOver := (suffix ++ [10]).drop (copyInto b (suffix ++ [10])).2 } } := by
  have hlen : 27 - 0 < r.data.length := by
    rw [hd]
    simp only [List.length_append, List.length_cons]
    omega
  have hfill := readSuffix_fills 27 r (List.replicate 27 0 ++ [10]) 0 (by omega) (by omega)
    (by simp) hlen
  have htake : r.data.take 27 = suffix := by
    rw [hd, List.append_assoc]
    exact List.take_left' hs
  have hdrop : r.data.drop 27 = junk ++ 10 :: rest := by
    rw [hd, List.append_assoc]
    exact List.drop_left' hs
  have hstage : (List.replicate 27 0 ++ [10]).take 0 ++ r.data.take (27 - 0)
      ++ (List.replicate 27 0 ++ [10]).drop 27 = suffix ++ [10] := by
    rw [Nat.sub_zero, htake]
    rfl
  rw [hstage, Nat.sub_zero, hdrop] at hfill
  have hdisc := discardLine_newline junk
    (({ r with data := junk ++ 10 :: rest } : Source).data.length + 1)
    { r with data := junk ++ 10 :: rest } [0] rest rfl hj rfl
    (by simp only [List.length_append, List.length_cons]; omega)
  unfold Stripper.Read
  rw [if_neg (by simp)]
  simp only [hfill, hdisc]

/-- Bytes staged in `leftOver` reach the caller in the following calls, in order. -/
theorem readAll_drain (r : Source) :
    ∀ (k : Nat) (lo b received : Bytes), lo.length ≤ k → 1 ≤ b.length →
      ∃ m b2, b2.length = b.length ∧
        ∀ fuel, readAll (fuel + m) { r := r, leftOver := lo } b received
          = readAll fuel { r := r, leftOver := [] } b2 (received ++ lo) := by
  intro k
  induction k with
  | zero =>
    intro lo b received hk hb
    have : lo = [] := List.length_eq_zero.1 (by omega)
    subst this
    exact ⟨0, b, rfl, fun fuel => by simp⟩
  | succ k ih =>
    intro lo b received hk hb
    by_cases hlo : lo = []
    · subst hlo
      exact ⟨0, b, rfl, fun fuel => by simp⟩
    · have hpos : lo.length > 0 := List.length_pos.2 hlo
      have hn : 1 ≤ min b.length lo.length := by omega
      have hb1 : (lo.take (min b.length lo.length) ++ b.drop (min b.length lo.length)).length
          = b.length := by
        simp only [List.length_append, List.length_take, List.length_drop]
        omega
      obtain ⟨m, b2, hb2, hrun⟩ := ih (lo.drop (min b.length lo.length))
        (lo.take (min b.length lo.length) ++ b.drop (min b.length lo.length))
        (received ++ lo.take (min b.length lo.length))
        (by simp only [List.length_drop]; omega) (by omega)
      refine ⟨m + 1, b2, by omega, ?_⟩
      intro fuel
      have hread : Stripper.Read { r := r, leftOver := lo } b
          = some
            { b := lo.take (min b.length lo.length) ++ b.drop (min b.length lo.length)
              n := min b.length lo.length
              err := none
              s := { r := r, leftOver := lo.drop (min b.length lo.length) } } := by
        unfold Stripper.Read
        rw [if_pos hpos]
        rfl
      have htk : (lo.take (min b.length lo.length) ++ b.drop (min b.length lo.length)).take
          (min b.length lo.length) = lo.take (min b.length lo.length) :=
        List.take_left' (by simp only [List.length_take]; omega)
      have e : fuel + (m + 1) = (fuel + m) + 1 := by omega
      rw [e]
      simp only [readAll, hread, htk]
      rw [hrun fuel, List.append_assoc, List.take_append_drop]

theorem wireLines_eq_nil (ls : List (Bytes × Bytes)) (h : wireLines ls = []) : ls = [] := by
  cases ls with
  | nil => rfl
  | cons l ls =>
    have := congrArg List.length h
    simp [wireLines] at this

/-- The records of well-formed lines: when the reader reports the end of the stream in a
call of its own, or the buffer holds a whole record, the calls of `Read` up to the end of
the stream deliver exactly the suffixes, each followed by a newline. -/
theorem readAll_wireLines :
    ∀ (ls : List (Bytes × Bytes)) (r : Source) (b received : Bytes),
      r.data = wireLines ls → (∀ l ∈ ls, l.1.length = 27 ∧ 10 ∉ l.2) → r.ending = .eof →
      1 ≤ b.length → (r.eager = false ∨ 28 ≤ b.length) →
      ∃ m, readAll m { r := r, leftOver := [] } b received
        = some (received ++ partitionFile (ls.map Prod.fst), ReadErr.eof) := by
  intro ls
  induction ls with
  | nil =>
    intro r b received hd _ hend _ _
    refine ⟨1, ?_⟩
    have hread : Stripper.Read { r := r, leftOver := [] } b
        = some { b := b, n := 0, err := some .eof, s := { r := r, leftOver := List.replicate 27 0 ++ [10] } } := by
      unfold Stripper.Read
      rw [if_neg (by simp)]
      simp [readSuffix, Source.Read_nil r _ hd, hend]
    simp [readAll, hread, partitionFile]
  | cons l ls ih =>
    intro r b received hd hwf hend hb hbuf
    obtain ⟨hs, hc⟩ := hwf l (List.mem_cons_self _ _)
    have hj : 10 ∉ (58 :: l.2) := by
      intro h
      rcases List.mem_cons.1 h with h | h
      · omega
      · exact hc h
    have hd2 : r.data = l.1 ++ (58 :: l.2) ++ 10 :: wireLines ls := by
      rw [hd]
      simp [wireLines]
    have hread := Stripper.Read_line r b l.1 (58 :: l.2) (wireLines ls) hd2 hs hj
    have hrec : (l.1 ++ [10]).length = 28 := by simp [hs]
    by_cases he : (r.eager && (wireLines ls).isEmpty) = true
    · -- the last line, whose newline comes with the end of the stream
      have hls : ls = [] := by
        apply wireLines_eq_nil
        have : (wireLines ls).isEmpty = true := by
          cases hx : (wireLines ls).isEmpty
          · rw [hx] at he; simp at he
          · rfl
        exact List.isEmpty_iff.1 this
      have heager : r.eager = true := by
        cases hx : r.eager
        · rw [hx] at he; simp at he
        · rfl
      have h28 : 28 ≤ b.length := by
        rcases hbuf with h | h
        · rw [h] at heager; exact Bool.noConfusion heager
        · exact h
      refine ⟨1, ?_⟩
      have hmin : min b.length (l.1 ++ [10]).length = 28 := by omega
      have htk : ((l.1 ++ [10]).take 28 ++ b.drop 28).take 28 = l.1 ++ [10] := by
        have e : (l.1 ++ [10]).take 28 = l.1 ++ [10] := List.take_of_length_le (by omega)
        rw [e]
        exact List.take_left' hrec
      simp only [readAll, hread, he, if_true, hend, copyInto, hmin, htk, hls, List.map_cons,
        List.map_nil, partitionFile]
      simp [heager, wireLines]
    · have he2 : (r.eager && (wireLines ls).isEmpty) = false := by
        simpa using he
      have hn : (copyInto b (l.1 ++ [10])).2 = min b.length 28 := by
        simp only [copyInto, hrec]
      have hb1 : (copyInto b (l.1 ++ [10])).1.length = b.length := by
        simp only [copyInto, List.length_append, List.length_take, List.length_drop, hrec]
        omega
      have htk : (copyInto b (l.1 ++ [10])).1.take (min b.length 28)
          = (l.1 ++ [10]).take (min b.length 28) := by
        simp only [copyInto, hrec]
        exact List.take_left' (by simp only [List.length_take, hrec]; omega)
      obtain ⟨m1, b2, hb2, hdrain⟩ := readAll_drain { r with data := wireLines ls } 28
        ((l.1 ++ [10]).drop (min b.length 28)) (copyInto b (l.1 ++ [10])).1
        (received ++ (l.1 ++ [10]).take (min b.length 28))
        (by simp only [List.length_drop, hrec]; omega) (by omega)
      obtain ⟨m2, hrest⟩ := ih { r with data := wireLines ls } b2
        (received ++ (l.1 ++ [10]).take (min b.length 28)
          ++ (l.1 ++ [10]).drop (min b.length 28))
        rfl (fun x hx => hwf x (List.mem_cons_of_mem _ hx)) hend (by omega)
        (by
          rcases hbuf with h | h
          · exact Or.inl h
          · exact Or.inr (by omega))
      refine ⟨(m2 + m1) + 1, ?_⟩
      simp only [readAll, hread, he2, Bool.false_eq_true, if_false, hn, htk]
      rw [hdrain m2, hrest]
      simp only [List.append_assoc, List.take_append_drop, List.map_cons, partitionFile,
        List.singleton_append]

/-! ## The end of the stream inside the count -/

theorem discardLine_eof :
    ∀ (junk : Bytes) (fuel : Nat) (r : Source) (single : Bytes),
      r.data = junk → 10 ∉ junk → single.length = 1 → junk.length + 1 ≤ fuel →
      discardLine fuel r single = some (some r.ending, { r with data := [] }) := by
  intro junk
  induction junk with
  | nil =>
    intro fuel r single hd _ _ hf
    cases fuel with
    | zero => omega
    | succ fuel =>
      have hr : ({ r with data := [] } : Source) = r := by
        cases r
        simp only at hd
        simp [hd]
      simp only [discardLine, Source.Read_nil r 1 hd, hr]
  | cons c junk ih =>
    intro fuel r single hd hj hs hf
    cases fuel with
    | zero => omega
    | succ fuel =>
      have hne : r.data ≠ [] := by rw [hd]; simp
      have hm : min 1 (r.chunk + 1) = 1 := by omega
      obtain ⟨x, hx⟩ : ∃ x, single = [x] := List.length_eq_one.1 hs
      have hc : c ≠ 10 := by
        intro h; exact hj (by simp [h])
      have hj2 : 10 ∉ junk := fun h => hj (List.mem_cons_of_mem _ h)
      simp only [discardLine, Source.Read_cons r 1 hne, hm, hd, List.take_succ_cons,
        List.take_zero, List.drop_succ_cons, List.drop_zero]
      by_cases he : (r.eager && junk.isEmpty) = true
      · have hjn : junk = [] := by
          have : junk.isEmpty = true := by
            cases hx2 : junk.isEmpty
            · rw [hx2] at he; simp at he
            · rfl
          exact List.isEmpty_iff.1 this
        have heg : r.eager = true := by
          cases hx2 : r.eager
          · rw [hx2] at he; simp at he
          · rfl
        simp [hjn, heg]
      · have he2 : (r.eager && junk.isEmpty) = false := by simpa using he
        have hcp : (copyInto single [c]).1 = [c] := by simp [hx, copyInto]
        simp only [he2, Bool.false_eq_true, if_false, hcp, List.head?_cons, Option.some.injEq,
          hc]
        rw [ih fuel { r with data := junk } [c] rfl hj2 rfl
          (by simp only [List.length_cons] at hf; omega)]

/-- The last line ends inside its count: when the buffer holds a whole record, the call
that reports the end of the stream returns the whole record. -/
theorem Stripper.Read_unterminated (r : Source) (b suffix junk : Bytes)
    (hd : r.data = suffix ++ junk) (hs : suffix.length = 27) (hne : junk ≠ [])
    (hj : 10 ∉ junk) (hb : 28 ≤ b.length) :
    Stripper.Read { r := r, leftOver := [] } b
      = some
        { b := suffix ++ [10] ++ b.drop 28
          n := 28
          err := some r.ending
          s := { r := { r with data := [] }, leftOver := [] } } := by
  have hjl : 1 ≤ junk.length := List.length_pos.2 hne
  have hlen : 27 - 0 < r.data.length := by
    rw [hd]
    simp only [List.length_append]
    omega
  have hfill := readSuffix_fills 27 r (List.replicate 27 0 ++ [10]) 0 (by omega) (by omega)
    (by simp) hlen
  have htake : r.data.take 27 = suffix := by
    rw [hd]
    exact List.take_left' hs
  have hdrop : r.data.drop 27 = junk := by
    rw [hd]
    exact List.drop_left' hs
  have hstage : (List.replicate 27 0 ++ [10]).take 0 ++ r.data.take (27 - 0)
      ++ (List.replicate 27 0 ++ [10]).drop 27 = suffix ++ [10] := by
    rw [Nat.sub_zero, htake]
    rfl
  rw [hstage, Nat.sub_zero, hdrop] at hfill
  have hdisc := discardLine_eof junk (({ r with data := junk } : Source).data.length + 1)
    { r with data := junk } [0] rfl hj rfl (by simp)
  have hrec : (suffix ++ [10]).length = 28 := by simp [hs]
  have hmin : min b.length (suffix ++ [10]).length = 28 := by omega
  have htk : (suffix ++ [10]).take 28 = suffix ++ [10] := List.take_of_length_le (by omega)
  have hdr : (suffix ++ [10]).drop 28 = [] := List.drop_of_length_le (by omega)
  unfold Stripper.Read
  rw [if_neg (by simp)]
  simp only [hfill, hdisc, copyInto, hmin, htk, hdr]

/-! ## Reading a whole stream -/

theorem readStream_total (r : Source) (size fuel : Nat) (hsize : 1 ≤ size)
    (hfuel : r.data.length + 1 ≤ fuel) : ∃ x, readStream fuel r size = some x :=
  readAll_total fuel { r := r, leftOver := [] } (List.replicate size 0) [] (by simpa using hsize)
    (by simpa using hfuel)

/-- Well-formed lines come out as their records when the reader reports the end of the
stream in a call of its own or the buffer holds a whole record, whatever the size of the
pieces the reader delivers and whatever the lengths of the counts. -/
theorem readStream_wireLines (ls : List (Bytes × Bytes)) (r : Source) (size fuel : Nat)
    (hd : r.data = wireLines ls) (hwf : ∀ l ∈ ls, l.1.length = 27 ∧ 10 ∉ l.2)
    (hend : r.ending = .eof) (hsize : 1 ≤ size) (hbuf : r.eager = false ∨ 28 ≤ size)
    (hfuel : r.data.length + 1 ≤ fuel) :
    readStream fuel r size = some (partitionFile (ls.map Prod.fst), ReadErr.eof) := by
  obtain ⟨m, hm⟩ := readAll_wireLines ls r (List.replicate size 0) [] hd hwf hend
    (by simpa using hsize) (by simpa using hbuf)
  obtain ⟨x, hx⟩ := readStream_total r size fuel hsize hfuel
  have h1 := readAll_mono m _ _ _ _ fuel hm
  have h2 := readAll_mono fuel _ _ _ _ m hx
  rw [Nat.add_comm] at h2
  rw [h1] at h2
  rw [hx, ← Option.some.inj h2]
  simp

/-! ## The first caller of a prefix -/

/-- What a successful check of the first caller of a prefix leaves behind. -/
theorem check_first_ok (lib : Lib) (net : Request → NetResponse) (w : World)
    (hash : Bytes) (found : Bool)
    (hfirst : w.searchedPrefixes.lookup ((toUpper hash).take 5) = none)
    (hok : (check lib net w hash).result = .ok found) :
    ∃ status etag body f,
      lib.newRequestOK (rangeRequest ((toUpper hash).take 5)
          (attemptLoadEtag lib w.files ((toUpper hash).take 5))).url = true ∧
      net (rangeRequest ((toUpper hash).take 5)
          (attemptLoadEtag lib w.files ((toUpper hash).take 5)))
        = .response status etag body ∧
      (check lib net w hash).world.files (dataPath ((toUpper hash).take 5)) = some f ∧
      (searchFile (toUpper hash) f).result = .returned found ∧
      (status = 304 → w.files (dataPath ((toUpper hash).take 5)) = some f ∧
        (check lib net w hash).world.files = w.files) ∧
      (status ≠ 304 → readStream (body.data.length + 2) body lib.copyBuf = some (f, .eof)) := by
  have hret : ∀ f : Bytes, CheckResult.ofSearch (searchFile (toUpper hash) f).result = .ok found →
      (searchFile (toUpper hash) f).result = .returned found := by
    intro f h
    obtain ⟨x, hx⟩ := (searchFile_probe_bounds (toUpper hash) f).2
    rw [hx] at h ⊢
    simp only [CheckResult.ofSearch, CheckResult.ok.injEq] at h
    rw [h]
  simp only [check, acquire_absent _ _ hfirst] at hok ⊢
  by_cases hurl : lib.newRequestOK (rangeRequest ((toUpper hash).take 5)
      (attemptLoadEtag lib w.files ((toUpper hash).take 5))).url = true
  · simp only [hurl, Bool.true_eq_false, if_false] at hok ⊢
    cases hnet : net (rangeRequest ((toUpper hash).take 5)
        (attemptLoadEtag lib w.files ((toUpper hash).take 5))) with
    | failure =>
      simp only [hnet] at hok
      exact CheckResult.noConfusion hok
    | response status etag body =>
      simp only [hnet] at hok ⊢
      refine ⟨status, etag, body, ?_⟩
      by_cases h304 : status = 304
      · simp only [h304, if_true] at hok ⊢
        cases hf : w.files (dataPath ((toUpper hash).take 5)) with
        | none =>
          simp only [searchData, hf] at hok
          exact CheckResult.noConfusion hok
        | some f =>
          simp only [searchData, hf] at hok
          refine ⟨f, ?_⟩
          simp [hf, hret f hok]
      · simp only [h304, if_false] at hok ⊢
        cases hrs : readStream (body.data.length + 2) body lib.copyBuf with
        | none =>
          simp only [hrs] at hok
          exact CheckResult.noConfusion hok
        | some x =>
          obtain ⟨written, err⟩ := x
          simp only [hrs] at hok ⊢
          by_cases he : err = .eof
          · subst he
            simp only [ne_eq, not_true_eq_false, if_false] at hok ⊢
            refine ⟨written, ?_⟩
            simp [Files.write, hret written hok, h304]
          · simp only [ne_eq, he, not_false_eq_true, if_true] at hok
            exact CheckResult.noConfusion hok
  · have hbad : lib.newRequestOK (rangeRequest ((toUpper hash).take 5)
        (attemptLoadEtag lib w.files ((toUpper hash).take 5))).url = false := by
      simpa using hurl
    simp only [hbad, if_true] at hok
    exact CheckResult.noConfusion hok

/-! ## Claims about `searchFile` -/

/-- C1: on a partition file of 27-byte suffixes, each followed by a newline and sorted in
ascending bytewise order, `searchFile` returns `true` exactly when the 27-byte suffix of
the hash is one of the records; it returns `false` on the empty file, and on the file
holding `AAA...A` and `ZZZ...Z` it returns `true` for `AAA...A` and `false` for `MMM...M`. -/
theorem searchFile_true_iff_record :
    (∀ (records : List Bytes) (hash : Bytes),
        (∀ r ∈ records, r.length = 27) →
        records.Pairwise (fun a b => strLt b a = false) →
        (hash.drop 5).length = 27 →
        (searchFile hash (partitionFile records)).result
          = .returned (decide (hash.drop 5 ∈ records))) ∧
    (∀ hash : Bytes, (hash.drop 5).length = 27 →
        (searchFile hash []).result = .returned false) ∧
    (∀ hash : Bytes, hash.drop 5 = List.replicate 27 65 →
        (searchFile hash
          (partitionFile [List.replicate 27 65, List.replicate 27 90])).result
          = .returned true) ∧
    (∀ hash : Bytes, hash.drop 5 = List.replicate 27 77 →
        (searchFile hash
          (partitionFile [List.replicate 27 65, List.replicate 27 90])).result
          = .returned false) := by
  have main : ∀ (records : List Bytes) (hash : Bytes),
      (∀ r ∈ records, r.length = 27) →
      records.Pairwise (fun a b => strLt b a = false) →
      (hash.drop 5).length = 27 →
      (searchFile hash (partitionFile records)).result
        = .returned (decide (hash.drop 5 ∈ records)) := by
    intro records hash hlen hs hq
    have hsz : (partitionFile records).length / 28 = records.length := by
      rw [partitionFile_length records hlen]
      omega
    have hne : ([] : Bytes) ≠ hash.drop 5 := by
      intro h
      rw [← h] at hq
      simp at hq
    obtain ⟨l, hl, hiff⟩ := searchLoop_sorted records (hash.drop 5) hlen hs records.length 0
      records.length [] (by omega) (le_refl _) (fun i hi => absurd hi (Nat.not_lt_zero i))
      (fun i hi hil => absurd hil (by omega)) hne
    simp only [searchFile, hsz, hl]
    congr 1
    exact decide_eq_decide.2 hiff
  refine ⟨main, ?_, ?_, ?_⟩
  · intro hash hq
    have := main [] hash (by simp) List.Pairwise.nil hq
    simpa [partitionFile] using this
  · intro hash hq
    have := main [List.replicate 27 65, List.replicate 27 90] hash (by simp) (by decide)
      (by simp [hq])
    rw [this, hq]
    decide
  · intro hash hq
    have := main [List.replicate 27 65, List.replicate 27 90] hash (by simp) (by decide)
      (by simp [hq])
    rw [this, hq]
    decide

/-- Witness for C1: the file with the records `AAA...A` and `ZZZ...Z`, queried with a hash
whose suffix is `ZZZ...Z`. -/
theorem searchFile_true_iff_record_witness :
    (searchFile (bytes "21BD1" ++ List.replicate 27 90)
        (partitionFile [List.replicate 27 65, List.replicate 27 90])).result
      = .returned true :=
  (searchFile_true_iff_record.1 [List.replicate 27 65, List.replicate 27 90]
      (bytes "21BD1" ++ List.replicate 27 90) (by decide) (by decide) (by decide)).trans
    (by decide)

/-- C10: for every file and every query, each probe of the bisection satisfies
`lower ≤ middle < upper ≤ size / 28`; the 27 bytes read at `middle * 28` lie inside the
whole records of the file, the read returns 27 bytes without error, no intermediate
value exceeds the file size, and `searchFile` returns (it is never stopped by a short
read, a read error, or the iteration budget). -/
theorem searchFile_probes_inside_file (hash file : Bytes) :
    (∀ p ∈ (searchFile hash file).probes,
        p.lower ≤ p.middle ∧ p.middle < p.upper ∧ p.upper ≤ file.length / 28 ∧
        p.middle * 28 + 27 ≤ file.length ∧
        p.middle * 28 + 27 < file.length / 28 * 28 ∧
        p.upper + p.lower ≤ file.length ∧
        (readAt file (p.middle * 28) 27).1.length = 27 ∧
        (readAt file (p.middle * 28) 27).2 = false) ∧
    ∃ found, (searchFile hash file).result = .returned found :=
  searchFile_probe_bounds hash file

/-! ## Claims about the registry and the request -/

/-- C5: from a registry without the prefix, whatever the order in which the mutex
serialises the critical sections of the callers (callers of other prefixes included),
the callers of the prefix get exactly one write hold, the first of them, and read holds
otherwise, one fewer than there are callers; they all get the same lock, and the
registry maps the prefix to that lock after these and any later critical sections. -/
theorem acquire_exactly_one_fresh (reg : Registry) (pfx : Bytes) (order : List Bytes)
    (habsent : reg.lookup pfx = none) (hmem : pfx ∈ order) :
    ∃ l,
      ((acquireAll reg order).2.filter
          (fun r => decide (r.1 = pfx ∧ r.2.2 = Hold.write))).length = 1 ∧
      ((acquireAll reg order).2.filter
          (fun r => decide (r.1 = pfx ∧ r.2.2 = Hold.read))).length = order.count pfx - 1 ∧
      ((acquireAll reg order).2.filter (fun r => decide (r.1 = pfx))).head?
          = some (pfx, l, Hold.write) ∧
      (∀ r ∈ (acquireAll reg order).2, r.1 = pfx → r.2.1 = l) ∧
      ∀ later, (acquireAll reg (order ++ later)).1.lookup pfx = some l := by
  obtain ⟨l, rest, h1, h2, h3, h4⟩ := acquireAll_absent pfx order reg habsent hmem
  have hsplit : ∀ (hold : Hold),
      (acquireAll reg order).2.filter (fun r => decide (r.1 = pfx ∧ r.2.2 = hold))
        = ((pfx, l, Hold.write) :: rest).filter (fun r => decide (r.2.2 = hold)) := by
    intro hold
    rw [← h1, List.filter_filter]
    congr 1
    funext r
    simp [and_comm]
  have hrd : rest.filter (fun r => decide (r.2.2 = Hold.read)) = rest := by
    apply List.filter_eq_self.2
    intro r hr
    rw [h2 r hr]
    simp
  have hwr : rest.filter (fun r => decide (r.2.2 = Hold.write)) = [] := by
    apply List.filter_eq_nil_iff.2
    intro r hr
    rw [h2 r hr]
    simp
  refine ⟨l, ?_, ?_, ?_, ?_, h4⟩
  · rw [hsplit, List.filter_cons]
    simp [hwr]
  · rw [hsplit, List.filter_cons]
    simp only [reduceCtorEq, decide_False, Bool.false_eq_true, if_false, hrd]
    omega
  · rw [h1]; rfl
  · intro r hr hrp
    have hmemf : r ∈ (acquireAll reg order).2.filter (fun r => decide (r.1 = pfx)) :=
      List.mem_filter.2 ⟨hr, by simpa using hrp⟩
    rw [h1] at hmemf
    rcases List.mem_cons.1 hmemf with rfl | hr2
    · rfl
    · rw [h2 r hr2]

/-- Witness for C5: three callers of `21BD1` and one of `AAAAA`, on an empty registry. -/
theorem acquire_exactly_one_fresh_witness :
    ∃ l,
      ((acquireAll [] [bytes "21BD1", bytes "AAAAA", bytes "21BD1", bytes "21BD1"]).2.filter
          (fun r => decide (r.1 = bytes "21BD1" ∧ r.2.2 = Hold.write))).length = 1 ∧
      ((acquireAll [] [bytes "21BD1", bytes "AAAAA", bytes "21BD1", bytes "21BD1"]).2.filter
          (fun r => decide (r.1 = bytes "21BD1" ∧ r.2.2 = Hold.read))).length
        = [bytes "21BD1", bytes "AAAAA", bytes "21BD1", bytes "21BD1"].count (bytes "21BD1") - 1 ∧
      ((acquireAll [] [bytes "21BD1", bytes "AAAAA", bytes "21BD1", bytes "21BD1"]).2.filter
          (fun r => decide (r.1 = bytes "21BD1"))).head?
        = some (bytes "21BD1", l, Hold.write) ∧
      (∀ r ∈ (acquireAll [] [bytes "21BD1", bytes "AAAAA", bytes "21BD1", bytes "21BD1"]).2,
          r.1 = bytes "21BD1" → r.2.1 = l) ∧
      ∀ later,
        (acquireAll [] ([bytes "21BD1", bytes "AAAAA", bytes "21BD1", bytes "21BD1"] ++ later)).1.lookup
          (bytes "21BD1") = some l :=
  acquire_exactly_one_fresh [] (bytes "21BD1")
    [bytes "21BD1", bytes "AAAAA", bytes "21BD1", bytes "21BD1"] (by decide) (by decide)

/-! ## Claims about `check` -/

/-- C3: for two hashes of 32 hexadecimal digits whose first five characters agree up to
case, and one state of the registry and the cache, `check` builds the same requests
whatever the suffixes are: none when the prefix is registered or `http.NewRequest`
refuses the URL, and otherwise the one request whose URL holds the upper-cased prefix and
whose conditional header is the validator stored for that prefix.  This holds for every
`strings.TrimSpace`, `http.NewRequest` and buffer of `io.Copy`. -/
theorem check_request_from_prefix_only (lib : Lib) (net : Request → NetResponse)
    (w : World) (h1 h2 : Bytes) (_hh1 : isHash h1 = true) (_hh2 : isHash h2 = true)
    (hpfx : toUpper (h1.take 5) = toUpper (h2.take 5)) :
    (check lib net w h1).requests = (check lib net w h2).requests ∧
    (check lib net w h1).requests =
      (if (w.searchedPrefixes.lookup (toUpper (h1.take 5))).isSome then []
      else if lib.newRequestOK (rangeRequest (toUpper (h1.take 5))
            (attemptLoadEtag lib w.files (toUpper (h1.take 5)))).url = true then
          [rangeRequest (toUpper (h1.take 5))
            (attemptLoadEtag lib w.files (toUpper (h1.take 5)))]
        else []) ∧
    (rangeRequest (toUpper (h1.take 5))
        (attemptLoadEtag lib w.files (toUpper (h1.take 5)))).url
      = bytes "https://api.pwnedpasswords.com/range/" ++ toUpper (h1.take 5)
          ++ bytes "?mode=ntlm" := by
  have e1 := check_requests lib net w h1
  have e2 := check_requests lib net w h2
  rw [toUpper_take] at e1 e2
  rw [← hpfx] at e2
  exact ⟨e1.trans e2.symm, e1, rfl⟩

/-- Witness for C3: two hashes with the prefix `21bd1` and `21BD1` and different
suffixes, a stored validator, and a network that fails. -/
theorem check_request_from_prefix_only_witness :
    (check (Lib.onASCII 64) (fun _ => NetResponse.failure)
        { searchedPrefixes := []
          files := Files.write (fun _ => none) (etagPath (bytes "21BD1")) (bytes "W/x ") }
        (bytes "21bd1" ++ List.replicate 27 65)).requests
      = (check (Lib.onASCII 64) (fun _ => NetResponse.failure)
        { searchedPrefixes := []
          files := Files.write (fun _ => none) (etagPath (bytes "21BD1")) (bytes "W/x ") }
        (bytes "21BD1" ++ List.replicate 27 70)).requests :=
  (check_request_from_prefix_only (Lib.onASCII 64) (fun _ => NetResponse.failure)
    { searchedPrefixes := []
      files := Files.write (fun _ => none) (etagPath (bytes "21BD1")) (bytes "W/x ") }
    (bytes "21bd1" ++ List.replicate 27 65) (bytes "21BD1" ++ List.replicate 27 70)
    (by decide) (by decide) (by decide)).1

/-- C4 as stated fails: the first query of the prefix `21BD1` meets a network failure, so
no data file is written; the later check of the same hash sends no request, and it
returns the error of line 51 instead of a result of the matcher. -/
theorem later_check_without_data_file :
    (check (Lib.onASCII 64) (fun _ => NetResponse.failure) World.fresh
        (bytes "21BD1" ++ List.replicate 27 65)).result = .error .query ∧
    (check (Lib.onASCII 64) (fun _ => NetResponse.failure) World.fresh
        (bytes "21BD1" ++ List.replicate 27 65)).world.files (dataPath (bytes "21BD1"))
      = none ∧
    (check (Lib.onASCII 64) (fun _ => NetResponse.failure)
        (check (Lib.onASCII 64) (fun _ => NetResponse.failure) World.fresh
          (bytes "21BD1" ++ List.replicate 27 65)).world
        (bytes "21BD1" ++ List.replicate 27 65)).requests = [] ∧
    ¬ ∃ found, (check (Lib.onASCII 64) (fun _ => NetResponse.failure)
        (check (Lib.onASCII 64) (fun _ => NetResponse.failure) World.fresh
          (bytes "21BD1" ++ List.replicate 27 65)).world
        (bytes "21BD1" ++ List.replicate 27 65)).result = .ok found := by
  refine ⟨by decide, by decide, by decide, ?_⟩
  rintro ⟨found, h⟩
  have e : (check (Lib.onASCII 64) (fun _ => NetResponse.failure)
        (check (Lib.onASCII 64) (fun _ => NetResponse.failure) World.fresh
          (bytes "21BD1" ++ List.replicate 27 65)).world
        (bytes "21BD1" ++ List.replicate 27 65)).result = .error .openData := by decide
  rw [e] at h
  exact CheckResult.noConfusion h

/-- C4, amended: after a check of a hash, and after any further checks of any hashes in
the process, every check of a hash with the same prefix (up to case) sends no request
and leaves the registry and the files as they are; the data file of the prefix is still
what the first check left; when it does not exist the check returns the error of line
51, and when it exists the check returns the result of `searchFile` on it. -/
theorem later_check_answers_from_file (lib : Lib) (net later : Request → NetResponse)
    (w : World) (h1 h2 : Bytes) (between : List ((Request → NetResponse) × Bytes))
    (_hh1 : isHash h1 = true) (_hh2 : isHash h2 = true)
    (_hb : ∀ call ∈ between, isHash call.2 = true)
    (hpfx : toUpper (h1.take 5) = toUpper (h2.take 5)) :
    (check lib later (checks lib (check lib net w h1).world between) h2).requests = [] ∧
    (check lib later (checks lib (check lib net w h1).world between) h2).world.files
      = (checks lib (check lib net w h1).world between).files ∧
    (check lib later (checks lib (check lib net w h1).world between) h2).world.searchedPrefixes
      = (checks lib (check lib net w h1).world between).searchedPrefixes ∧
    (checks lib (check lib net w h1).world between).files (dataPath (toUpper (h2.take 5)))
      = (check lib net w h1).world.files (dataPath (toUpper (h2.take 5))) ∧
    (((checks lib (check lib net w h1).world between).files (dataPath (toUpper (h2.take 5)))
          = none ∧
        (check lib later (checks lib (check lib net w h1).world between) h2).result
          = .error .openData) ∨
      ∃ f, (checks lib (check lib net w h1).world between).files
            (dataPath (toUpper (h2.take 5))) = some f ∧
        (check lib later (checks lib (check lib net w h1).world between) h2).result
          = .ok (decide ((searchFile (toUpper h2) f).result = .returned true))) := by
  obtain ⟨l, hreg⟩ := check_registers lib net w h1
  rw [toUpper_take, hpfx] at hreg
  obtain ⟨hreg2, hfile⟩ := checks_keeps lib _ l between _ hreg
  have hreg3 := hreg2
  rw [← toUpper_take] at hreg3
  rw [check_of_registered lib later _ h2 l hreg3]
  refine ⟨rfl, rfl, rfl, hfile, ?_⟩
  rw [← toUpper_take]
  exact searchData_result _ _ _

/-- Witness for C4 amended: the first check fetches two records; a check of another prefix
follows, whose request fails; the later check of another hash of the first prefix sends
no request. -/
theorem later_check_answers_from_file_witness :
    (check (Lib.onASCII 64) (fun _ => NetResponse.failure)
        (checks (Lib.onASCII 64)
          (check (Lib.onASCII 64) (fun _ => NetResponse.response 200 (bytes "W/x")
              { data := wireLines [(List.replicate 27 65, bytes "12"),
                  (List.replicate 27 70, bytes "3")]
                chunk := 1000, eager := true, ending := .eof })
            World.fresh (bytes "21bd1" ++ List.replicate 27 65)).world
          [(fun _ => NetResponse.failure, bytes "ABCDE" ++ List.replicate 27 65)])
        (bytes "21BD1" ++ List.replicate 27 70)).requests = [] :=
  (later_check_answers_from_file (Lib.onASCII 64)
    (fun _ => NetResponse.response 200 (bytes "W/x")
      { data := wireLines [(List.replicate 27 65, bytes "12"),
          (List.replicate 27 70, bytes "3")]
        chunk := 1000, eager := true, ending := .eof })
    (fun _ => NetResponse.failure) World.fresh
    (bytes "21bd1" ++ List.replicate 27 65) (bytes "21BD1" ++ List.replicate 27 70)
    [(fun _ => NetResponse.failure, bytes "ABCDE" ++ List.replicate 27 65)]
    (by decide) (by decide) (by decide) (by decide)).1

/-! ## Claims about the batch loop -/

/-- C7 as stated fails: on the input of one valid line followed by the line `short`, the
first hash is handed to a goroutine and its `check` returns before the main goroutine
scans the second line and stops the process. -/
theorem abort_follows_an_evaluation :
    ((Batch.start [bytes "21BD1" ++ List.replicate 27 65, bytes "short"]).run
        (Lib.onASCII 64) [Event.scan, Event.checked 0 (some true), Event.scan]).map
      (fun s => (s.status, s.evaluated))
      = some (MainStatus.fatal, [bytes "21BD1" ++ List.replicate 27 65]) := by
  decide

/-- C7, amended: a line is validated when the loop scans it.  In every state of every run
the hashes handed to goroutines are the trimmed lines of a front part of the input, all
of them of length 32, so no line at or after the first line of another length is ever
evaluated, and only started hashes are evaluated.  When the loop scans a line whose
trimmed length is not 32 the process stops there, whatever the tokens in `limit`,
nothing more is started or evaluated, and no further step happens.  This holds for every
`strings.TrimSpace`. -/
theorem batch_stops_at_first_bad_line (lib : Lib) (lines : List Bytes) (evs : List Event)
    (s : Batch) (hrun : (Batch.start lines).run lib evs = some s) :
    s.started = (lines.take s.started.length).map lib.trimSpace ∧
    (∀ l ∈ lines.take s.started.length, (lib.trimSpace l).length = 32) ∧
    (∀ h ∈ s.evaluated, h ∈ s.started) ∧
    (s.status = .scanning → s.pending = lines.drop s.started.length) ∧
    (∀ bad rest, s.status = .scanning → s.pending = bad :: rest →
        (lib.trimSpace bad).length ≠ 32 →
        ∃ t, s.step lib .scan = some t ∧ t.status = .fatal ∧ t.started = s.started ∧
          t.evaluated = s.evaluated ∧ ∀ e, t.step lib e = none) ∧
    (s.status = .fatal →
        (∃ bad, lines[s.started.length]? = some bad ∧ (lib.trimSpace bad).length ≠ 32) ∧
        ∀ e, s.step lib e = none) := by
  have inv := batchInv_run lib lines evs _ s (batchInv_start lib lines) hrun
  refine ⟨inv.started_eq, inv.started_valid, inv.evaluated_sub, inv.pending_eq, ?_, ?_⟩
  · intro bad rest hst hp hbad
    refine ⟨{ s with status := .fatal, pending := rest }, ?_, rfl, rfl, rfl, ?_⟩
    · simp [Batch.step, hst, hp, hbad]
    · intro e
      exact step_none_of_ended lib _ e (by simp)
  · intro hst
    exact ⟨inv.fatal_at hst, fun e => step_none_of_ended lib s e (by simp [hst])⟩

/-- Witness for C7 amended: two valid lines, the line `short`, and a fourth line; the
first hash is evaluated, then the loop scans the second and the third line. -/
theorem batch_stops_at_first_bad_line_witness :
    ∃ s, (Batch.start [bytes "21BD1" ++ List.replicate 27 65,
            bytes " 21BD1" ++ List.replicate 27 66 ++ bytes " ", bytes "short",
            bytes "21BD1" ++ List.replicate 27 67]).run (Lib.onASCII 64)
          [Event.scan, Event.checked 0 (some true), Event.scan, Event.scan] = some s ∧
      s.status = .fatal ∧
      s.started = ([bytes "21BD1" ++ List.replicate 27 65,
            bytes " 21BD1" ++ List.replicate 27 66 ++ bytes " ", bytes "short",
            bytes "21BD1" ++ List.replicate 27 67].take s.started.length).map
          (Lib.onASCII 64).trimSpace ∧
      s.started.length = 2 := by
  refine ⟨_, rfl, rfl, ?_, rfl⟩
  exact And.left (batch_stops_at_first_bad_line (Lib.onASCII 64)
    [bytes "21BD1" ++ List.replicate 27 65,
      bytes " 21BD1" ++ List.replicate 27 66 ++ bytes " ", bytes "short",
      bytes "21BD1" ++ List.replicate 27 67]
    [Event.scan, Event.checked 0 (some true), Event.scan, Event.scan] _ rfl)

/-- C8 fails on the code: on every input of more than 10 lines, in every run in which no
`check` fails, at most 10 hashes are ever handed to a goroutine, every token of `limit`
is held by a goroutine that is inside `check` or inside its send on `output`, and the
main goroutine never leaves the loop; and on every input, each evaluated hash whose
`check` succeeded is in a goroutine that is still inside its send. -/
theorem batch_starts_at_most_ten (lib : Lib) (lines : List Bytes) (evs : List Event)
    (s : Batch) (hrun : (Batch.start lines).run lib evs = some s)
    (hok : ∀ e ∈ evs, ∀ i, e ≠ Event.checked i none) (hlong : 10 < lines.length) :
    s.started.length ≤ 10 ∧ s.status ≠ .returned ∧
    s.limit = s.checking.length + s.sending.length ∧
    s.started.length = s.checking.length + s.sending.length := by
  have inv := batchInv_run lib lines evs _ s (batchInv_start lib lines) hrun
  have hlog := run_logged_nil lib evs _ s rfl hrun hok
  have h1 := inv.limit_eq
  have h2 := inv.limit_le
  have h3 := inv.started_len
  rw [hlog] at h3
  simp only [List.length_nil, Nat.add_zero] at h3
  refine ⟨by omega, ?_, h1, by omega⟩
  intro hret
  have := inv.returned_at hret
  omega

/-- Witness for C8: eleven valid lines; ten hashes are started and their checks succeed;
the ten results stay in their sends and the eleventh line is still pending. -/
theorem batch_starts_at_most_ten_witness :
    (Batch.start (List.replicate 11 (bytes "21BD1" ++ List.replicate 27 65))).run
        (Lib.onASCII 64)
        (List.replicate 10 Event.scan ++ List.replicate 10 (Event.checked 0 (some true)))
      = some
        { status := .scanning, pending := [bytes "21BD1" ++ List.replicate 27 65], limit := 10,
          checking := [],
          sending := List.replicate 10 ⟨bytes "21BD1" ++ List.replicate 27 65, true⟩,
          logged := [], started := List.replicate 10 (bytes "21BD1" ++ List.replicate 27 65),
          evaluated := List.replicate 10 (bytes "21BD1" ++ List.replicate 27 65) } ∧
    (List.replicate 10 (bytes "21BD1" ++ List.replicate 27 65)).length ≤ 10 :=
  ⟨by decide,
    (batch_starts_at_most_ten (Lib.onASCII 64)
      (List.replicate 11 (bytes "21BD1" ++ List.replicate 27 65))
      (List.replicate 10 Event.scan ++ List.replicate 10 (Event.checked 0 (some true)))
      { status := .scanning, pending := [bytes "21BD1" ++ List.replicate 27 65], limit := 10,
        checking := [],
        sending := List.replicate 10 ⟨bytes "21BD1" ++ List.replicate 27 65, true⟩,
        logged := [], started := List.replicate 10 (bytes "21BD1" ++ List.replicate 27 65),
        evaluated := List.replicate 10 (bytes "21BD1" ++ List.replicate 27 65) }
      (by decide)
      (fun e he i => by
        rcases List.mem_append.1 he with h | h
        · rw [List.eq_of_mem_replicate h]
          exact Event.noConfusion
        · rw [List.eq_of_mem_replicate h]
          intro hc
          cases hc)
      (by decide)).1⟩

/-! ## Claims about `Stripper.Read` -/

/-- C2 fails on the code: the stream holds the two well-formed lines `AAA...A:12` and
`BBB...B:3`, the reader reports `io.EOF` in the call that delivers the last newline, and
the caller reads into 10 bytes.  The call that stages the second record returns its
first 10 bytes together with `io.EOF`, so the caller has received 38 bytes, not the two
records of 56 bytes; the same stream through a reader that reports `io.EOF` in a call of
its own comes out as the two records. -/
theorem read_drops_staged_bytes_at_eager_eof :
    readStream 63
        { data := wireLines [(List.replicate 27 65, bytes "12"), (List.replicate 27 66, bytes "3")]
          chunk := 1000, eager := true, ending := .eof } 10
      = some (List.replicate 27 65 ++ 10 :: List.replicate 10 66, ReadErr.eof) ∧
    readStream 63
        { data := wireLines [(List.replicate 27 65, bytes "12"), (List.replicate 27 66, bytes "3")]
          chunk := 1000, eager := false, ending := .eof } 10
      = some (partitionFile [List.replicate 27 65, List.replicate 27 66], ReadErr.eof) := by
  constructor <;> decide

/-- C9 fails on the code: the stream is the suffix `AAA...A` followed by `:5` and no line
terminator, and the caller reads into 10 bytes.  The first call returns 10 bytes of the
record together with `io.EOF`; the other 18 bytes stay in `leftOver`.  With a buffer of
28 bytes the whole record is returned. -/
theorem read_drops_staged_bytes_at_eof_in_count :
    readStream 31
        { data := List.replicate 27 65 ++ bytes ":5", chunk := 1000, eager := false,
          ending := .eof } 10
      = some (List.replicate 10 65, ReadErr.eof) ∧
    (Stripper.Read
        { r := { data := List.replicate 27 65 ++ bytes ":5", chunk := 1000, eager := false,
                 ending := .eof }
          leftOver := [] } (List.replicate 10 0)).map (fun ret => (ret.n, ret.err, ret.s.leftOver))
      = some (10, some ReadErr.eof, List.replicate 17 65 ++ [10]) ∧
    readStream 31
        { data := List.replicate 27 65 ++ bytes ":5", chunk := 1000, eager := false,
          ending := .eof } 28
      = some (List.replicate 27 65 ++ [10], ReadErr.eof) := by
  refine ⟨by decide, by decide, by decide⟩

/-! ## Claims about the cache files a later caller finds -/

/-- C6 as stated fails.  When the request of the first caller of `21BD1` fails, the prefix
is registered, so a later caller takes the read hold, and no data file exists.  When the
first caller gets a 304 for a cache whose data file holds five bytes, its check returns
without error, a later caller takes the read hold, and the data file still holds those
five bytes, which are not a whole number of records. -/
theorem later_caller_finds_missing_or_short_file :
    (acquire (check (Lib.onASCII 64) (fun _ => NetResponse.failure) World.fresh
        (bytes "21BD1" ++ List.replicate 27 65)).world.searchedPrefixes (bytes "21BD1")).hold
      = Hold.read ∧
    (check (Lib.onASCII 64) (fun _ => NetResponse.failure) World.fresh
        (bytes "21BD1" ++ List.replicate 27 65)).world.files (dataPath (bytes "21BD1"))
      = none ∧
    (check (Lib.onASCII 64)
        (fun _ => NetResponse.response 304 []
          { data := [], chunk := 0, eager := false, ending := .eof })
        { searchedPrefixes := []
          files := Files.write
            (Files.write (fun _ => none) (etagPath (bytes "21BD1")) (bytes "W/x"))
            (dataPath (bytes "21BD1")) (bytes "AAAAA") }
        (bytes "21BD1" ++ List.replicate 27 65)).result = .ok false ∧
    (acquire (check (Lib.onASCII 64)
        (fun _ => NetResponse.response 304 []
          { data := [], chunk := 0, eager := false, ending := .eof })
        { searchedPrefixes := []
          files := Files.write
            (Files.write (fun _ => none) (etagPath (bytes "21BD1")) (bytes "W/x"))
            (dataPath (bytes "21BD1")) (bytes "AAAAA") }
        (bytes "21BD1" ++ List.replicate 27 65)).world.searchedPrefixes (bytes "21BD1")).hold
      = Hold.read ∧
    (check (Lib.onASCII 64)
        (fun _ => NetResponse.response 304 []
          { data := [], chunk := 0, eager := false, ending := .eof })
        { searchedPrefixes := []
          files := Files.write
            (Files.write (fun _ => none) (etagPath (bytes "21BD1")) (bytes "W/x"))
            (dataPath (bytes "21BD1")) (bytes "AAAAA") }
        (bytes "21BD1" ++ List.replicate 27 65)).world.files (dataPath (bytes "21BD1"))
      = some (bytes "AAAAA") := by
  refine ⟨by decide, by decide, by decide, by decide, by decide⟩

/-- C6, amended: when the check of the first caller of a prefix has returned without
error, then after any further checks of any hashes in the process every caller of the
prefix takes the read hold and finds the data file; it is the file the first caller
searched, and the check of the later caller returns the result of `searchFile` on it.
After a 304 it is the file that was on disk before; after another response whose body is
well-formed lines ended by `io.EOF`, copied through a buffer of at least 28 bytes, it
holds exactly the records of the body. -/
theorem later_caller_finds_first_callers_file (lib : Lib)
    (net later : Request → NetResponse) (w : World) (h1 h2 : Bytes) (found : Bool)
    (between : List ((Request → NetResponse) × Bytes))
    (_hh1 : isHash h1 = true) (_hh2 : isHash h2 = true)
    (_hb : ∀ call ∈ between, isHash call.2 = true)
    (hpfx : toUpper (h1.take 5) = toUpper (h2.take 5))
    (hfirst : w.searchedPrefixes.lookup (toUpper (h1.take 5)) = none)
    (hok : (check lib net w h1).result = .ok found) :
    (acquire (checks lib (check lib net w h1).world between).searchedPrefixes
        (toUpper (h2.take 5))).hold = Hold.read ∧
    ∃ f, (checks lib (check lib net w h1).world between).files
          (dataPath (toUpper (h2.take 5))) = some f ∧
      (check lib net w h1).world.files (dataPath (toUpper (h2.take 5))) = some f ∧
      (searchFile (toUpper h1) f).result = .returned found ∧
      (check lib later (checks lib (check lib net w h1).world between) h2).requests = [] ∧
      (check lib later (checks lib (check lib net w h1).world between) h2).result
        = .ok (decide ((searchFile (toUpper h2) f).result = .returned true)) ∧
      ∀ status etag body,
        net (rangeRequest (toUpper (h1.take 5))
            (attemptLoadEtag lib w.files (toUpper (h1.take 5))))
          = .response status etag body →
        (status = 304 → w.files (dataPath (toUpper (h1.take 5))) = some f) ∧
        (status ≠ 304 → ∀ ls : List (Bytes × Bytes), body.data = wireLines ls →
          (∀ l ∈ ls, l.1.length = 27 ∧ 10 ∉ l.2) → body.ending = .eof →
          28 ≤ lib.copyBuf → f = partitionFile (ls.map Prod.fst)) := by
  rw [← toUpper_take] at hfirst
  obtain ⟨status, etag, body, f, _, hnet, hfile, hfound, h304, hfetch⟩ :=
    check_first_ok lib net w h1 found hfirst hok
  obtain ⟨l, hreg⟩ := check_registers lib net w h1
  rw [toUpper_take] at hnet hfile h304 hreg
  rw [hpfx] at hfile hreg
  obtain ⟨hreg2, hkeep⟩ := checks_keeps lib _ l between _ hreg
  have hfile2 := hkeep.trans hfile
  refine ⟨by rw [acquire_present _ _ l hreg2], f, hfile2, hfile, hfound, ?_, ?_, ?_⟩
  · rw [← toUpper_take] at hreg2
    rw [check_of_registered lib later _ h2 l hreg2]
  · rw [← toUpper_take] at hreg2 hfile2
    rw [check_of_registered lib later _ h2 l hreg2]
    rcases searchData_result (checks lib (check lib net w h1).world between).files
      ((toUpper h2).take 5) (toUpper h2) with ⟨hnone, _⟩ | ⟨g, hg, hres⟩
    · rw [hfile2] at hnone
      exact Option.noConfusion hnone
    · rw [hfile2] at hg
      rw [Option.some.inj hg]
      exact hres
  · intro status2 etag2 body2 hnet2
    rw [hnet] at hnet2
    simp only [NetResponse.response.injEq] at hnet2
    obtain ⟨rfl, rfl, rfl⟩ := hnet2
    refine ⟨fun h => (h304 h).1, ?_⟩
    intro hne ls hd hwf hend hbuf
    have h1 := hfetch hne
    rw [readStream_wireLines ls body lib.copyBuf _ hd hwf hend (by omega) (Or.inr hbuf)
      (by omega)] at h1
    simp only [Option.some.injEq, Prod.mk.injEq, and_true] at h1
    exact h1.symm

/-- Witness for C6 amended: the first caller fetches two records through a buffer of 64
bytes and finds its suffix; a caller of another prefix fetches another record; the later
caller of the first prefix takes the read hold. -/
theorem later_caller_finds_first_callers_file_witness :
    (acquire (checks (Lib.onASCII 64)
        (check (Lib.onASCII 64) (fun _ => NetResponse.response 200 (bytes "W/x")
            { data := wireLines [(List.replicate 27 65, bytes "12"),
                (List.replicate 27 70, bytes "3")]
              chunk := 1000, eager := true, ending := .eof })
          World.fresh (bytes "21bd1" ++ List.replicate 27 65)).world
        [(fun _ => NetResponse.response 200 (bytes "W/y")
            { data := wireLines [(List.replicate 27 66, bytes "7")]
              chunk := 1000, eager := true, ending := .eof },
          bytes "ABCDE" ++ List.replicate 27 65)]).searchedPrefixes
      (toUpper ((bytes "21BD1" ++ List.replicate 27 70).take 5))).hold = Hold.read :=
  (later_caller_finds_first_callers_file (Lib.onASCII 64)
    (fun _ => NetResponse.response 200 (bytes "W/x")
      { data := wireLines [(List.replicate 27 65, bytes "12"),
          (List.replicate 27 70, bytes "3")]
        chunk := 1000, eager := true, ending := .eof })
    (fun _ => NetResponse.failure) World.fresh
    (bytes "21bd1" ++ List.replicate 27 65) (bytes "21BD1" ++ List.replicate 27 70) true
    [(fun _ => NetResponse.response 200 (bytes "W/y")
        { data := wireLines [(List.replicate 27 66, bytes "7")]
          chunk := 1000, eager := true, ending := .eof },
      bytes "ABCDE" ++ List.replicate 27 65)]
    (by decide) (by decide) (by decide) (by decide) (by decide) (by decide)).1

end PwnedCheck
